import Mathlib

/-!
DataAnalyzer: a shallow embedding of `DataAnalyzer.cpp`.

The C++ class `DataAnalyzer` owns one `std::vector<double> data` and offers a
recursive in-place merge sort together with three aggregate queries (mean,
median, mode).

Modelling conventions.

* A `std::vector<double>` is a `List α`.  The element type `α` stands for the
  finite `double` values the validator admits; comparisons need a linear order
  and the aggregates a linearly ordered field (arithmetic is exact, rounding is
  not modelled).  Concrete evaluations are carried out over `ℚ`.
* An `int` is an `Int`: on a range of valid indices of a vector of fewer than
  `2 ^ 31` elements no `int` computation of the source overflows.  `/`, `%` on
  `int` are the truncating `Int.tdiv`, `Int.tmod`.
* Every subscript `v[i]` and every iterator range is checked: an access outside
  the vector (undefined behaviour in C++) is the fault `Fault.outOfBounds`.
* `while` loops are recursions on a step budget computed by the caller from the
  loop bounds; a budget that runs out is the separate fault `Fault.outOfFuel`.
* A `std::string` is a `List Char`.  The two library routines the validator and
  the reader rely on, `istringstream >> double` and `std::stod`, are modelled
  for the classic locale and decimal notation: optional sign, digits with an
  optional decimal point, optional exponent.  The value of a numeral is its exact
  rational value, and the range errors of `double` are decided on it: a magnitude
  of at least `2 ^ 1024 - 2 ^ 970` rounds to infinity (the extraction sets
  `failbit`, `std::stod` throws `std::out_of_range`), and a non-zero magnitude
  below the smallest normal `double`, `2 ^ (-1022)`, makes `std::stod` throw
  `std::out_of_range` too, while the extraction accepts it.
  An exception that nothing catches is the fault `Fault.uncaughtException`.
* `mergeSortFuel32` is the recursion of `mergeSort` once more with its `int`
  arithmetic carried out in 32 bits; it is used to tell for which index pairs
  the unbounded `Int` of the other definitions is what the machine computes.
* The functions named `...Traced` are the sort once more, with every read and
  write of `arr` and every read of the runs `L`, `R` recorded in order; on valid
  index ranges they are proved to return what the plain functions return.
-/

namespace DataAnalyzer

/-- The ways in which a run of the embedded code can fail to yield a value. -/
inductive Fault where
  | outOfBounds
  | outOfFuel
  | uncaughtException
  deriving DecidableEq, Repr

section VectorModel

variable {α : Type}

/-- Subscript read `v[i]` with an `int` index. -/
def readAt (v : List α) (i : Int) : Except Fault α :=
  if 0 ≤ i then
    match v[i.toNat]? with
    | some x => Except.ok x
    | none => Except.error Fault.outOfBounds
  else Except.error Fault.outOfBounds

/-- Subscript write `v[i] = x` with an `int` index. -/
def writeAt (v : List α) (i : Int) (x : α) : Except Fault (List α) :=
  if 0 ≤ i ∧ i.toNat < v.length then Except.ok (v.set i.toNat x)
  else Except.error Fault.outOfBounds

/-- The temporary made by `vector<double> T(n); copy(v.begin() + first,
v.begin() + first + n, T.begin());`: the `n` elements of `v` from position
`first` on. -/
def copyRange (v : List α) (first n : Int) : Except Fault (List α) :=
  if 0 ≤ first ∧ 0 ≤ n ∧ first + n ≤ (v.length : Int) then
    Except.ok ((v.drop first.toNat).take n.toNat)
  else Except.error Fault.outOfBounds

end VectorModel

section SortCode

variable {α : Type} [LinearOrder α]

/-- The first loop of `merge`:
`while (i < n1 && j < n2) arr[k++] = (L[i] <= R[j]) ? L[i++] : R[j++];`.
Returns the array together with the final `i`, `j`, `k`. -/
def mergeLoop (L R : List α) (n1 n2 : Int) :
    Nat → List α → Int → Int → Int → Except Fault (List α × Int × Int × Int)
  | 0, arr, i, j, k =>
    if i < n1 ∧ j < n2 then Except.error Fault.outOfFuel else Except.ok (arr, i, j, k)
  | fuel + 1, arr, i, j, k =>
    if i < n1 ∧ j < n2 then
      match readAt L i, readAt R j with
      | Except.ok a, Except.ok b =>
        if a ≤ b then
          match writeAt arr k a with
          | Except.ok arr1 => mergeLoop L R n1 n2 fuel arr1 (i + 1) j (k + 1)
          | Except.error e => Except.error e
        else
          match writeAt arr k b with
          | Except.ok arr1 => mergeLoop L R n1 n2 fuel arr1 i (j + 1) (k + 1)
          | Except.error e => Except.error e
      | Except.error e, _ => Except.error e
      | _, Except.error e => Except.error e
    else Except.ok (arr, i, j, k)

/-- The two trailing loops of `merge`, `while (i < n1) arr[k++] = L[i++];` and
`while (j < n2) arr[k++] = R[j++];`: copy what is left of one run.  Returns the
array together with the final run index and `k`. -/
def copyRest (src : List α) (n : Int) :
    Nat → List α → Int → Int → Except Fault (List α × Int × Int)
  | 0, arr, i, k =>
    if i < n then Except.error Fault.outOfFuel else Except.ok (arr, i, k)
  | fuel + 1, arr, i, k =>
    if i < n then
      match readAt src i with
      | Except.ok a =>
        match writeAt arr k a with
        | Except.ok arr1 => copyRest src n fuel arr1 (i + 1) (k + 1)
        | Except.error e => Except.error e
      | Except.error e => Except.error e
    else Except.ok (arr, i, k)

/-- `DataAnalyzer::merge`: merge the sorted runs `[left..mid]` and
`[mid+1..right]` of `arr` in place. -/
def merge (arr : List α) (left mid right : Int) : Except Fault (List α) :=
  let n1 := mid - left + 1
  let n2 := right - mid
  match copyRange arr left n1, copyRange arr (mid + 1) n2 with
  | Except.ok L, Except.ok R =>
    match mergeLoop L R n1 n2 (n1 + n2).toNat arr 0 0 left with
    | Except.ok (arr1, i, j, k) =>
      match copyRest L n1 (n1 - i).toNat arr1 i k with
      | Except.ok (arr2, _, k2) =>
        match copyRest R n2 (n2 - j).toNat arr2 j k2 with
        | Except.ok (arr3, _, _) => Except.ok arr3
        | Except.error e => Except.error e
      | Except.error e => Except.error e
    | Except.error e => Except.error e
  | Except.error e, _ => Except.error e
  | _, Except.error e => Except.error e

/-- The recursion of `DataAnalyzer::mergeSort`, with a budget on its depth. -/
def mergeSortFuel : Nat → List α → Int → Int → Except Fault (List α)
  | 0, arr, left, right =>
    if left < right then Except.error Fault.outOfFuel else Except.ok arr
  | fuel + 1, arr, left, right =>
    if left < right then
      let mid := left + Int.tdiv (right - left) 2
      match mergeSortFuel fuel arr left mid with
      | Except.ok arr1 =>
        match mergeSortFuel fuel arr1 (mid + 1) right with
        | Except.ok arr2 => merge arr2 left mid right
        | Except.error e => Except.error e
      | Except.error e => Except.error e
    else Except.ok arr

/-- `DataAnalyzer::mergeSort(arr, left, right)`, on exact integers.  The depth
budget is the width `right - left` of the range, which the halving recursion
never exhausts as long as `right - left` does not overflow an `int`. -/
def mergeSort (arr : List α) (left right : Int) : Except Fault (List α) :=
  mergeSortFuel (right - left).toNat arr left right

/-- The value an `int` computation yields on a 32-bit two's complement machine
when its exact result is `x`: overflow wraps around.  (In C++ signed overflow is
undefined behaviour; wrapping is what the usual targets do.) -/
def wrapInt32 (x : Int) : Int :=
  (x + 2 ^ 31) % 2 ^ 32 - 2 ^ 31

/-- The values an `int` can hold. -/
def IsInt32 (x : Int) : Prop :=
  -(2 ^ 31) ≤ x ∧ x < 2 ^ 31

instance decidableIsInt32 (x : Int) : Decidable (IsInt32 x) := by
  unfold IsInt32
  infer_instance

/-- The statement `int mid = left + (right - left) / 2;` of `mergeSort` in
32-bit arithmetic. -/
def midpoint32 (left right : Int) : Int :=
  wrapInt32 (left + Int.tdiv (wrapInt32 (right - left)) 2)

/-- The recursion of `DataAnalyzer::mergeSort` as in `mergeSortFuel`, with the
`int` arithmetic of its body (`right - left`, the midpoint, `mid + 1`) carried
out in 32 bits.  The arithmetic inside `merge` is left exact, which is what
the machine computes whenever `right - left` does not overflow. -/
def mergeSortFuel32 : Nat → List α → Int → Int → Except Fault (List α)
  | 0, arr, left, right =>
    if left < right then Except.error Fault.outOfFuel else Except.ok arr
  | fuel + 1, arr, left, right =>
    if left < right then
      let mid := midpoint32 left right
      match mergeSortFuel32 fuel arr left mid with
      | Except.ok arr1 =>
        match mergeSortFuel32 fuel arr1 (wrapInt32 (mid + 1)) right with
        | Except.ok arr2 => merge arr2 left mid right
        | Except.error e => Except.error e
      | Except.error e => Except.error e
    else Except.ok arr

/-- Positions `left..right` of `arr` hold a non-decreasing run: this is the
postcondition of `mergeSort`, stated on subscripts. -/
def SortedRange (arr : List α) (left right : Int) : Prop :=
  ∀ i j : Nat, left ≤ (i : Int) → i ≤ j → (j : Int) ≤ right →
    ∀ x y : α, arr[i]? = some x → arr[j]? = some y → x ≤ y

end SortCode

section TracedSort

variable {α : Type} [LinearOrder α]

/-- One memory access of the sort: a read or a write of `arr` at a subscript, or
a read of one of the temporary runs `L`, `R` of `merge` at a subscript, recorded
with the size (`n1` or `n2`) the run was created with. -/
inductive Access where
  | arrRead (index : Int)
  | arrWrite (index : Int)
  | runRead (index : Int) (size : Int)
  deriving DecidableEq, Repr

/-- The access stays inside the window `lo..hi` of `arr`, or below the size of
the run it reads. -/
def Access.within (lo hi : Int) : Access → Prop
  | Access.arrRead index => lo ≤ index ∧ index ≤ hi
  | Access.arrWrite index => lo ≤ index ∧ index ≤ hi
  | Access.runRead index size => 0 ≤ index ∧ index < size

/-- The reads of `arr` made by `copy(arr.begin() + first, arr.begin() + first + n,
...)`: positions `first, ..., first + n - 1`. -/
def copyReads (first n : Int) : List Access :=
  (List.range n.toNat).map (fun (t : Nat) => Access.arrRead (first + (t : Int)))

/-- The first loop of `merge` as in `mergeLoop`, recording every access. -/
def mergeLoopTraced (L R : List α) (n1 n2 : Int) :
    Nat → List α → Int → Int → Int → List Access →
      Except Fault ((List α × Int × Int × Int) × List Access)
  | 0, arr, i, j, k, log =>
    if i < n1 ∧ j < n2 then Except.error Fault.outOfFuel else Except.ok ((arr, i, j, k), log)
  | fuel + 1, arr, i, j, k, log =>
    if i < n1 ∧ j < n2 then
      match readAt L i, readAt R j with
      | Except.ok a, Except.ok b =>
        if a ≤ b then
          match writeAt arr k a with
          | Except.ok arr1 =>
            mergeLoopTraced L R n1 n2 fuel arr1 (i + 1) j (k + 1)
              (log ++ [Access.runRead i n1, Access.runRead j n2, Access.runRead i n1,
                Access.arrWrite k])
          | Except.error e => Except.error e
        else
          match writeAt arr k b with
          | Except.ok arr1 =>
            mergeLoopTraced L R n1 n2 fuel arr1 i (j + 1) (k + 1)
              (log ++ [Access.runRead i n1, Access.runRead j n2, Access.runRead j n2,
                Access.arrWrite k])
          | Except.error e => Except.error e
      | Except.error e, _ => Except.error e
      | _, Except.error e => Except.error e
    else Except.ok ((arr, i, j, k), log)

/-- The trailing loops of `merge` as in `copyRest`, recording every access. -/
def copyRestTraced (src : List α) (n : Int) :
    Nat → List α → Int → Int → List Access → Except Fault ((List α × Int × Int) × List Access)
  | 0, arr, i, k, log =>
    if i < n then Except.error Fault.outOfFuel else Except.ok ((arr, i, k), log)
  | fuel + 1, arr, i, k, log =>
    if i < n then
      match readAt src i with
      | Except.ok a =>
        match writeAt arr k a with
        | Except.ok arr1 =>
          copyRestTraced src n fuel arr1 (i + 1) (k + 1)
            (log ++ [Access.runRead i n, Access.arrWrite k])
        | Except.error e => Except.error e
      | Except.error e => Except.error e
    else Except.ok ((arr, i, k), log)

/-- `DataAnalyzer::merge` as in `merge`, recording every access to `arr` and
every read of `L` and `R`. -/
def mergeTraced (arr : List α) (left mid right : Int) (log : List Access) :
    Except Fault (List α × List Access) :=
  let n1 := mid - left + 1
  let n2 := right - mid
  match copyRange arr left n1, copyRange arr (mid + 1) n2 with
  | Except.ok L, Except.ok R =>
    match mergeLoopTraced L R n1 n2 (n1 + n2).toNat arr 0 0 left
        (log ++ copyReads left n1 ++ copyReads (mid + 1) n2) with
    | Except.ok ((arr1, i, j, k), log1) =>
      match copyRestTraced L n1 (n1 - i).toNat arr1 i k log1 with
      | Except.ok ((arr2, _, k2), log2) =>
        match copyRestTraced R n2 (n2 - j).toNat arr2 j k2 log2 with
        | Except.ok ((arr3, _, _), log3) => Except.ok (arr3, log3)
        | Except.error e => Except.error e
      | Except.error e => Except.error e
    | Except.error e => Except.error e
  | Except.error e, _ => Except.error e
  | _, Except.error e => Except.error e

/-- The recursion of `mergeSort` as in `mergeSortFuel`, recording every access. -/
def mergeSortFuelTraced :
    Nat → List α → Int → Int → List Access → Except Fault (List α × List Access)
  | 0, arr, left, right, log =>
    if left < right then Except.error Fault.outOfFuel else Except.ok (arr, log)
  | fuel + 1, arr, left, right, log =>
    if left < right then
      let mid := left + Int.tdiv (right - left) 2
      match mergeSortFuelTraced fuel arr left mid log with
      | Except.ok (arr1, log1) =>
        match mergeSortFuelTraced fuel arr1 (mid + 1) right log1 with
        | Except.ok (arr2, log2) => mergeTraced arr2 left mid right log2
        | Except.error e => Except.error e
      | Except.error e => Except.error e
    else Except.ok (arr, log)

/-- `DataAnalyzer::mergeSort(arr, left, right)` together with the list of the
accesses it makes, in order. -/
def mergeSortTraced (arr : List α) (left right : Int) :
    Except Fault (List α × List Access) :=
  mergeSortFuelTraced (right - left).toNat arr left right []

end TracedSort

section Statistics

variable {α : Type} [LinearOrderedField α]

/-- `DataAnalyzer::calculateMean`.  Like every member function below it is given
the member `data` and returns its result together with `data` after the call. -/
def calculateMean (data : List α) : α × List α :=
  if data.isEmpty then (0, data)
  else
    let sum := data.foldl (fun acc num => acc + num) 0
    (sum / (data.length : α), data)

/-- `DataAnalyzer::calculateMedian`: sorts `data` in place with
`mergeSort(data, 0, data.size() - 1)` and reads the middle element(s). -/
def calculateMedian (data : List α) : Except Fault (α × List α) :=
  if data.isEmpty then Except.ok (0, data)
  else
    let n : Int := (data.length : Int)
    match mergeSort data 0 ((data.length : Int) - 1) with
    | Except.ok data1 =>
      if Int.tmod n 2 = 0 then
        match readAt data1 (Int.tdiv n 2 - 1), readAt data1 (Int.tdiv n 2) with
        | Except.ok a, Except.ok b => Except.ok ((a + b) / 2, data1)
        | Except.error e, _ => Except.error e
        | _, Except.error e => Except.error e
      else
        match readAt data1 (Int.tdiv n 2) with
        | Except.ok a => Except.ok (a, data1)
        | Except.error e => Except.error e
    | Except.error e => Except.error e

/-- `freq[num]++` on the `std::map<double, int> freq`, kept as the list of its
(key, count) entries in ascending key order: a key that is absent is inserted
with count `0` before the increment. -/
def mapIncrement : List (α × Int) → α → List (α × Int)
  | [], num => [(num, 0 + 1)]
  | (key, cnt) :: rest, num =>
    if num < key then (num, 0 + 1) :: (key, cnt) :: rest
    else if key < num then (key, cnt) :: mapIncrement rest num
    else (key, cnt + 1) :: rest

/-- The scan `for (auto& pair : freq)` of `calculateMode`, carrying `maxCount`
and `modes`. -/
def modeScan : List (α × Int) → Int → List α → Int × List α
  | [], maxCount, modes => (maxCount, modes)
  | (key, cnt) :: rest, maxCount, modes =>
    if cnt > maxCount then modeScan rest cnt [key]
    else if cnt = maxCount then modeScan rest maxCount (modes ++ [key])
    else modeScan rest maxCount modes

/-- `DataAnalyzer::calculateMode`. -/
def calculateMode (data : List α) : α × List α :=
  if data.isEmpty then (0, data)
  else
    let freq := data.foldl mapIncrement []
    let modes := (modeScan freq 0 []).2
    let sum := modes.foldl (fun acc num => acc + num) 0
    (sum / (modes.length : α), data)

/-- What `saveToCSV` writes after the header row: the three statistic rows and
the values of the final `Sorted values` row, in the order written. -/
structure CsvRows (α : Type) where
  mean : α
  median : α
  mode : α
  sortedValues : List α

/-- `DataAnalyzer::saveToCSV`, on the branch where the output file opens: the
three statistics are computed left to right while the rows are written, then
the row loop writes `data[0], ..., data[data.size() - 1]`.  The number
formatting (`fixed`, `setprecision(4)`) is not modelled. -/
def saveToCSV (data : List α) : Except Fault (CsvRows α × List α) :=
  match calculateMean data with
  | (mean, data1) =>
    match calculateMedian data1 with
    | Except.ok (median, data2) =>
      match calculateMode data2 with
      | (mode, data3) =>
        Except.ok ({ mean := mean, median := median, mode := mode, sortedValues := data3 }, data3)
    | Except.error e => Except.error e

/-- What `displayResults` prints: the listing of `data` after the sort, then
the three statistics, in the order printed. -/
structure ConsoleReport (α : Type) where
  sortedValues : List α
  mean : α
  median : α
  mode : α

/-- `DataAnalyzer::displayResults`: sorts `data` in place with
`mergeSort(data, 0, data.size() - 1)`, prints `data[0], ..., data[size - 1]`
and then the three statistics.  For the empty vector the unsigned
`data.size() - 1`, converted to the `int` parameter, is `-1`, which is also
what the subtraction on `Int` gives.  The number formatting is not modelled. -/
def displayResults (data : List α) : Except Fault (ConsoleReport α × List α) :=
  match mergeSort data 0 ((data.length : Int) - 1) with
  | Except.ok data1 =>
    match calculateMean data1 with
    | (mean, data2) =>
      match calculateMedian data2 with
      | Except.ok (median, data3) =>
        match calculateMode data3 with
        | (mode, data4) =>
          Except.ok ({ sortedValues := data1, mean := mean, median := median, mode := mode },
            data4)
      | Except.error e => Except.error e
  | Except.error e => Except.error e

end Statistics

section Reference

variable {α : Type} [LinearOrderedField α]

/-- The largest occurrence count of a value in the dataset. -/
def maxOccurrence (data : List α) : Nat :=
  (data.map (fun x => data.count x)).foldr max 0

/-- The distinct values of the dataset whose occurrence count is the maximum
occurrence count. -/
def modeSet (data : List α) : Finset α :=
  data.toFinset.filter (fun x => data.count x = maxOccurrence data)

/-- The mode as the specification words it: the arithmetic mean of the set of
distinct values whose occurrence count is maximal. -/
def modeSpec (data : List α) : α :=
  (∑ x in modeSet data, x) / ((modeSet data).card : α)

/-- The conventional median of a sequence `T` that is already in non-decreasing
order: `T[n/2]` for odd `n`, the mean of `T[n/2 - 1]` and `T[n/2]` for even `n`
(`0` stands in for a subscript that does not exist). -/
def medianOfSorted (T : List α) : α :=
  if T.length % 2 = 1 then T.getD (T.length / 2) 0
  else (T.getD (T.length / 2 - 1) 0 + T.getD (T.length / 2) 0) / 2

/-- The count stored under key `k` in a list of map entries (`0` when the key is
absent); used to state what the frequency map of `calculateMode` holds. -/
def entryCount : List (α × Int) → α → Int
  | [], _ => 0
  | (key, cnt) :: rest, k => if key = k then cnt else entryCount rest k

/-- The running maximum kept by the scan of `calculateMode`: the largest of
`m` and the counts of the entries. -/
def scanMax : List (α × Int) → Int → Int
  | [], m => m
  | (_, cnt) :: rest, m => scanMax rest (max m cnt)

/-- The smallest value of a dataset (`0` for the empty one). -/
def smallest : List α → α
  | [] => 0
  | [x] => x
  | x :: y :: rest => min x (smallest (y :: rest))

/-- The largest value of a dataset (`0` for the empty one). -/
def largest : List α → α
  | [] => 0
  | [x] => x
  | x :: y :: rest => max x (largest (y :: rest))

end Reference

section Input

/-- The characters `std::isspace` accepts in the classic locale: space, `\t`,
`\n`, vertical tab, form feed, `\r`. -/
def isSpace (c : Char) : Bool :=
  c == ' ' || c == '\t' || c == '\n' || c == Char.ofNat 11 || c == Char.ofNat 12 || c == '\r'

/-- The input field a floating-point extraction reads, split into its parts,
together with the input left unread. -/
structure FloatField where
  sign : Option Char
  intDigits : List Char
  point : Bool
  fracDigits : List Char
  expMark : Bool
  expSign : Option Char
  expDigits : List Char
  rest : List Char
  deriving DecidableEq, Repr

/-- Read an optional `+` or `-`. -/
def scanSign : List Char → Option Char × List Char
  | [] => (none, [])
  | c :: rest => if c == '+' || c == '-' then (some c, rest) else (none, c :: rest)

/-- Read the exponent part, which may only follow a mantissa with a digit: `e`
or `E`, an optional sign, digits. -/
def scanExponent (hasMantissa : Bool) (s : List Char) :
    Bool × Option Char × List Char × List Char :=
  match s with
  | [] => (false, none, [], [])
  | c :: rest =>
    if hasMantissa && (c == 'e' || c == 'E') then
      match scanSign rest with
      | (sg, rest1) => (true, sg, rest1.takeWhile Char.isDigit, rest1.dropWhile Char.isDigit)
    else (false, none, [], c :: rest)

/-- Read the fraction part: a decimal point and the digits after it. -/
def scanFraction : List Char → Bool × List Char × List Char
  | [] => (false, [], [])
  | c :: rest =>
    if c == '.' then (true, rest.takeWhile Char.isDigit, rest.dropWhile Char.isDigit)
    else (false, [], c :: rest)

/-- The scan a floating-point extraction performs on its input: the longest
prefix of the shape sign, digits, point, digits, exponent mark, sign, digits. -/
def scanFloat (s : List Char) : FloatField :=
  match scanSign s with
  | (sg, s1) =>
    match scanFraction (s1.dropWhile Char.isDigit) with
    | (pt, fd, s3) =>
      match scanExponent (!(s1.takeWhile Char.isDigit).isEmpty || !fd.isEmpty) s3 with
      | (em, es, ed, s4) =>
        { sign := sg, intDigits := s1.takeWhile Char.isDigit, point := pt, fracDigits := fd,
          expMark := em, expSign := es, expDigits := ed, rest := s4 }

/-- The field converts to a number: the mantissa has a digit and an exponent
mark, if present, is followed by a digit. -/
def FloatField.converts (f : FloatField) : Bool :=
  (!f.intDigits.isEmpty || !f.fracDigits.isEmpty) && (!f.expMark || !f.expDigits.isEmpty)

/-- The number written by a run of decimal digits. -/
def digitsValue (ds : List Char) : Nat :=
  ds.foldl (fun acc c => 10 * acc + (c.toNat - 48)) 0

/-- The number a field that converts stands for. -/
def FloatField.value {α : Type} [LinearOrderedField α] (f : FloatField) : α :=
  let mantissa : α :=
    (digitsValue f.intDigits : α) + (digitsValue f.fracDigits : α) / 10 ^ f.fracDigits.length
  let scaled : α :=
    if f.expSign = some '-' then mantissa / 10 ^ digitsValue f.expDigits
    else mantissa * 10 ^ digitsValue f.expDigits
  if f.sign = some '-' then -scaled else scaled

/-- The magnitude from which a decimal numeral rounds to infinity as a `double`:
halfway between the largest `double`, `2 ^ 1024 - 2 ^ 971`, and `2 ^ 1024`. -/
def overflowThreshold : ℚ :=
  2 ^ 1024 - 2 ^ 970

/-- The smallest positive normal `double`, `2 ^ (-1022)`. -/
def smallestNormal : ℚ :=
  1 / 2 ^ 1022

/-- The conversion of the field overflows: `strtod` returns `HUGE_VAL`. -/
def FloatField.overflows (f : FloatField) : Bool :=
  decide (overflowThreshold ≤ |(f.value : ℚ)|)

/-- The conversion of the field underflows: the value is not zero and lies below
the normal range, where `strtod` sets `errno` to `ERANGE`.  (A numeral that is
exactly a subnormal `double` is not told apart.) -/
def FloatField.underflows (f : FloatField) : Bool :=
  decide ((f.value : ℚ) ≠ 0 ∧ |(f.value : ℚ)| < smallestNormal)

/-- The state bits of a stream after an extraction. -/
structure StreamState where
  eofbit : Bool
  failbit : Bool
  deriving DecidableEq, Repr

/-- The state of `istringstream iss(str)` after `iss >> val` for a `double val`:
leading white space is skipped (end of input there sets both bits), the field
is scanned, `failbit` is set when the field does not convert or its value
overflows, and `eofbit` when the scan used up the input. -/
def extractDouble (str : List Char) : StreamState :=
  match str.dropWhile isSpace with
  | [] => { eofbit := true, failbit := true }
  | c :: rest =>
    let f := scanFloat (c :: rest)
    { eofbit := f.rest.isEmpty, failbit := !f.converts || f.overflows }

/-- `DataAnalyzer::isValidNumber`. -/
def isValidNumber (str : List Char) : Bool :=
  if str.isEmpty then false
  else
    let iss := extractDouble str
    iss.eofbit && !iss.failbit

/-- The characters `" \t\n\r"` that `readFiles` strips from both ends of a line. -/
def isTrimChar (c : Char) : Bool :=
  c == ' ' || c == '\t' || c == '\n' || c == '\r'

/-- The two statements `line.erase(0, line.find_first_not_of(" \t\n\r"));` and
`line.erase(line.find_last_not_of(" \t\n\r") + 1);` of `readFiles`: the first
removes the leading trim characters (the whole line when there is no other
character), the second everything after the last other character. -/
def trim (line : List Char) : List Char :=
  ((line.dropWhile isTrimChar).reverse.dropWhile isTrimChar).reverse

variable {α : Type} [LinearOrderedField α]

/-- `std::stod(str)`: skips leading white space and converts the longest numeric
prefix.  It throws `std::invalid_argument` when there is none and
`std::out_of_range` when the conversion overflows or underflows; `readFiles`
catches neither. -/
def stod (str : List Char) : Except Fault α :=
  let f := scanFloat (str.dropWhile isSpace)
  if !f.intDigits.isEmpty || !f.fracDigits.isEmpty then
    if f.overflows || f.underflows then Except.error Fault.uncaughtException
    else Except.ok f.value
  else Except.error Fault.uncaughtException

/-- The loop `while (getline(file, line))` of `readFiles` over the lines of one
file: returns `fileValid` and `fileData`. -/
def readLines : List (List Char) → List α → Except Fault (Bool × List α)
  | [], fileData => Except.ok (true, fileData)
  | line :: rest, fileData =>
    let line1 := trim line
    if isValidNumber line1 then
      match stod line1 with
      | Except.ok val => readLines rest (fileData ++ [val])
      | Except.error e => Except.error e
    else Except.ok (false, fileData)

/-- One round of the `while (!validFile)` loop of `readFiles` for a file that
opened and holds the given lines: returns `validFile` and the member `data`.
The prompts and the error log are not modelled. -/
def readSource (data : List α) (lines : List (List Char)) : Except Fault (Bool × List α) :=
  match readLines lines [] with
  | Except.ok (fileValid, fileData) =>
    if fileValid && !fileData.isEmpty then Except.ok (true, data ++ fileData)
    else Except.ok (false, data)
  | Except.error e => Except.error e

/-- The field scanned from a token that is one run of digits. -/
def digitField (ds : List Char) : FloatField :=
  { sign := none, intDigits := ds, point := false, fracDigits := [], expMark := false,
    expSign := none, expDigits := [], rest := [] }

/-- An optional sign: nothing, `+` or `-`. -/
def IsOptSign (s : List Char) : Prop :=
  s = [] ∨ s = ['+'] ∨ s = ['-']

/-- A run of decimal digits. -/
def AllDigits (s : List Char) : Prop :=
  ∀ c ∈ s, c.isDigit = true

/-- A numeral in decimal notation: an optional sign, a mantissa `ip ++ fp` of
digits with at most one decimal point and at least one digit, and optionally an
exponent `ex` made of `e` or `E`, an optional sign and at least one digit. -/
def IsRealNumeral (s : List Char) : Prop :=
  ∃ sg ip fp ex : List Char, s = sg ++ (ip ++ (fp ++ ex)) ∧ IsOptSign sg ∧ AllDigits ip ∧
    (fp = [] ∨ ∃ fd : List Char, fp = '.' :: fd ∧ AllDigits fd) ∧
    (ip ≠ [] ∨ ∃ (d : Char) (fd : List Char), fp = '.' :: d :: fd) ∧
    (ex = [] ∨ ∃ (m : Char) (es ed : List Char), ex = m :: (es ++ ed) ∧ (m = 'e' ∨ m = 'E') ∧
      IsOptSign es ∧ AllDigits ed ∧ ed ≠ [])

/-- The exact value of a numeral. -/
def numeralValue (s : List Char) : ℚ :=
  (scanFloat s).value

end Input

section SortProofs
variable {α : Type}

theorem readAt_natCast (v : List α) (i : Nat) (h : i < v.length) :
    readAt v (i : Int) = Except.ok v[i] := by
  simp [readAt, List.getElem?_eq_getElem h]

theorem writeAt_append (pre rest : List α) (x a : α) :
    writeAt (pre ++ x :: rest) (pre.length : Int) a = Except.ok (pre ++ a :: rest) := by
  simp [writeAt]

theorem copyRange_append (pre seg post : List α) :
    copyRange (pre ++ seg ++ post) (pre.length : Int) (seg.length : Int) = Except.ok seg := by
  have h : (pre.length : Int) + seg.length ≤ pre.length + seg.length + post.length := by omega
  simp [copyRange, h]

theorem copyRest_spec (src : List α) :
    ∀ (fuel : Nat) (pre hole post : List α) (i : Nat), i ≤ src.length →
      hole.length = src.length - i → src.length - i ≤ fuel →
      copyRest src (src.length : Int) fuel (pre ++ hole ++ post) (i : Int) (pre.length : Int)
        = Except.ok (pre ++ src.drop i ++ post, (src.length : Int),
            ((pre.length + (src.length - i) : Nat) : Int)) := by
  intro fuel
  induction fuel with
  | zero =>
    intro pre hole post i hi hh hf
    have hi2 : i = src.length := by omega
    subst hi2
    have : hole = [] := by
      apply List.eq_nil_of_length_eq_zero; omega
    subst this
    simp [copyRest]
  | succ fuel ih =>
    intro pre hole post i hi hh hf
    by_cases hlt : i < src.length
    · have hlt2 : (i : Int) < (src.length : Int) := by omega
      cases hole with
      | nil => simp at hh; omega
      | cons x hole1 =>
        rw [copyRest, if_pos hlt2, readAt_natCast src i hlt]
        simp only [List.append_assoc, List.cons_append]
        rw [writeAt_append]
        have e1 : pre ++ src[i] :: (hole1 ++ post) = (pre ++ [src[i]]) ++ hole1 ++ post := by simp
        have e2 : ((pre.length : Int) + 1) = ((pre ++ [src[i]]).length : Int) := by simp
        have e3 : ((i : Int) + 1) = ((i + 1 : Nat) : Int) := by simp
        simp only []
        rw [e1, e2, e3, ih (pre ++ [src[i]]) hole1 post (i + 1) (by omega) (by simp at hh; omega) (by omega)]
        have e4 : List.drop i src = src[i] :: List.drop (i + 1) src := by
          exact List.drop_eq_getElem_cons hlt
        rw [e4]
        simp
        omega
    · have hi2 : i = src.length := by omega
      subst hi2
      have : hole = [] := by
        apply List.eq_nil_of_length_eq_zero; omega
      subst this
      simp [copyRest]

variable [LinearOrder α]

theorem mergeLoop_stop (L R : List α) (fuel : Nat) (arr : List α) (i j k : Int)
    (h : ¬ (i < (L.length : Int) ∧ j < (R.length : Int))) :
    mergeLoop L R L.length R.length fuel arr i j k = Except.ok (arr, i, j, k) := by
  cases fuel <;> simp [mergeLoop, h]

theorem mergeLoop_spec (L R : List α) :
    ∀ (fuel : Nat) (pre hole post : List α) (i j : Nat), i ≤ L.length → j ≤ R.length →
      hole.length = (L.length - i) + (R.length - j) →
      (L.length - i) + (R.length - j) ≤ fuel →
      ∃ (out hole1 : List α) (i1 j1 : Nat),
        mergeLoop L R L.length R.length fuel (pre ++ hole ++ post) i j pre.length
          = Except.ok (pre ++ out ++ hole1 ++ post, (i1 : Int), (j1 : Int),
              ((pre.length + out.length : Nat) : Int)) ∧
        i1 ≤ L.length ∧ j1 ≤ R.length ∧ (i1 = L.length ∨ j1 = R.length) ∧
        hole1.length = (L.length - i1) + (R.length - j1) ∧
        out ++ List.merge (L.drop i1) (R.drop j1) (fun a b => decide (a ≤ b))
          = List.merge (L.drop i) (R.drop j) (fun a b => decide (a ≤ b)) := by
  intro fuel
  induction fuel with
  | zero =>
    intro pre hole post i j hi hj hh hf
    refine ⟨[], hole, i, j, ?_, hi, hj, by omega, hh, by simp⟩
    rw [mergeLoop_stop L R 0 _ _ _ _ (by omega)]
    simp
  | succ fuel ih =>
    intro pre hole post i j hi hj hh hf
    by_cases hc : i < L.length ∧ j < R.length
    · obtain ⟨hil, hjl⟩ := hc
      have hc2 : (i : Int) < (L.length : Int) ∧ (j : Int) < (R.length : Int) := by omega
      have eL : List.drop i L = L[i] :: List.drop (i + 1) L := List.drop_eq_getElem_cons hil
      have eR : List.drop j R = R[j] :: List.drop (j + 1) R := List.drop_eq_getElem_cons hjl
      cases hole with
      | nil => simp at hh; omega
      | cons x hole0 =>
        rw [mergeLoop, if_pos hc2, readAt_natCast L i hil, readAt_natCast R j hjl]
        simp only [List.append_assoc, List.cons_append]
        by_cases hab : L[i] ≤ R[j]
        · simp only [if_pos hab]
          rw [writeAt_append]
          have e1 : pre ++ L[i] :: (hole0 ++ post) = (pre ++ [L[i]]) ++ hole0 ++ post := by simp
          have e2 : ((pre.length : Int) + 1) = ((pre ++ [L[i]]).length : Int) := by simp
          have e3 : ((i : Int) + 1) = ((i + 1 : Nat) : Int) := by simp
          simp only []
          rw [e1, e2, e3]
          obtain ⟨out, hole1, i1, j1, hrun, h1, h2, h3, h4, h5⟩ :=
            ih (pre ++ [L[i]]) hole0 post (i + 1) j (by omega) hj (by simp at hh; omega) (by omega)
          refine ⟨L[i] :: out, hole1, i1, j1, ?_, h1, h2, h3, h4, ?_⟩
          · rw [hrun]; simp; omega
          · rw [eL, eR, List.cons_merge_cons]
            simp only [decide_eq_true_eq, if_pos hab, List.cons_append]
            rw [h5, eR]
        · simp only [if_neg hab]
          rw [writeAt_append]
          have e1 : pre ++ R[j] :: (hole0 ++ post) = (pre ++ [R[j]]) ++ hole0 ++ post := by simp
          have e2 : ((pre.length : Int) + 1) = ((pre ++ [R[j]]).length : Int) := by simp
          have e3 : ((j : Int) + 1) = ((j + 1 : Nat) : Int) := by simp
          simp only []
          rw [e1, e2, e3]
          obtain ⟨out, hole1, i1, j1, hrun, h1, h2, h3, h4, h5⟩ :=
            ih (pre ++ [R[j]]) hole0 post i (j + 1) hi (by omega) (by simp at hh; omega) (by omega)
          refine ⟨R[j] :: out, hole1, i1, j1, ?_, h1, h2, h3, h4, ?_⟩
          · rw [hrun]; simp; omega
          · rw [eL, eR, List.cons_merge_cons]
            simp only [decide_eq_true_eq, if_neg hab, List.cons_append]
            rw [h5, eL]
    · refine ⟨[], hole, i, j, ?_, hi, hj, by omega, hh, by simp⟩
      rw [mergeLoop_stop L R _ _ _ _ _ (by omega)]
      simp

theorem merge_spec (pre A B post : List α) (left mid right : Int)
    (hl : left = (pre.length : Int)) (hm : mid - left + 1 = (A.length : Int))
    (hr : right - mid = (B.length : Int)) :
    merge (pre ++ A ++ B ++ post) left mid right
      = Except.ok (pre ++ List.merge A B (fun a b => decide (a ≤ b)) ++ post) := by
  have hm1 : mid + 1 = ((pre ++ A).length : Int) := by simp; omega
  unfold merge
  simp only []
  rw [hm, hr, hm1]
  have c1 : copyRange (pre ++ A ++ B ++ post) left (A.length : Int) = Except.ok A := by
    rw [hl]
    have := copyRange_append pre A (B ++ post)
    simpa using this
  have c2 : copyRange (pre ++ A ++ B ++ post) ((pre ++ A).length : Int) (B.length : Int)
      = Except.ok B := copyRange_append (pre ++ A) B post
  rw [c1, c2]
  simp only []
  obtain ⟨out, hole1, i1, j1, hrun, h1, h2, h3, h4, h5⟩ :=
    mergeLoop_spec A B (A.length + B.length) pre (A ++ B) post 0 0 (by omega) (by omega)
      (by simp) (by simp)
  have ef : ((A.length : Int) + (B.length : Int)).toNat = A.length + B.length := by omega
  have earr : pre ++ A ++ B ++ post = pre ++ (A ++ B) ++ post := by simp
  rw [ef, earr, hl]
  have hrun2 := hrun
  simp only [Nat.cast_zero] at hrun2
  rw [hrun2]
  simp only []
  -- second loop
  have ef2 : ((A.length : Int) - (i1 : Int)).toNat = A.length - i1 := by omega
  have earr2 : pre ++ out ++ hole1 ++ post
      = (pre ++ out) ++ hole1.take (A.length - i1) ++ (hole1.drop (A.length - i1) ++ post) := by
    rw [List.append_assoc _ _ (_ ++ post), ← List.append_assoc _ _ post, List.take_append_drop,
      List.append_assoc (pre ++ out)]
  have ek : ((pre.length + out.length : Nat) : Int) = ((pre ++ out).length : Int) := by simp
  rw [ef2, earr2, ek,
    copyRest_spec A (A.length - i1) (pre ++ out) (hole1.take (A.length - i1))
      (hole1.drop (A.length - i1) ++ post) i1 h1 (by simp; omega) (le_refl _)]
  simp only []
  -- third loop
  have ef3 : ((B.length : Int) - (j1 : Int)).toNat = B.length - j1 := by omega
  have earr3 : pre ++ out ++ List.drop i1 A ++ (hole1.drop (A.length - i1) ++ post)
      = (pre ++ out ++ List.drop i1 A) ++ hole1.drop (A.length - i1) ++ post := by
    simp
  have ek3 : (((pre ++ out).length + (A.length - i1) : Nat) : Int)
      = ((pre ++ out ++ List.drop i1 A).length : Int) := by simp; omega
  rw [ef3, earr3, ek3,
    copyRest_spec B (B.length - j1) (pre ++ out ++ List.drop i1 A)
      (hole1.drop (A.length - i1)) post j1 h2 (by simp; omega) (le_refl _)]
  simp only []
  have hfin : out ++ List.drop i1 A ++ List.drop j1 B
      = List.merge A B (fun a b => decide (a ≤ b)) := by
    have h5b := h5
    simp only [List.drop_zero] at h5b
    rw [← h5b]
    rcases h3 with h3 | h3
    · subst h3; simp [List.nil_merge]
    · subst h3; simp [List.merge_right]
  rw [← hfin]
  simp

theorem sorted_of_length_le_one (l : List α) (h : l.length ≤ 1) : l.Sorted (· ≤ ·) := by
  match l, h with
  | [], _ => exact List.sorted_nil
  | [a], _ => exact List.sorted_singleton a
  | _ :: _ :: _, h => simp at h

theorem mergeSortFuel_spec :
    ∀ (fuel : Nat) (pre seg post : List α) (left right : Int),
      left = (pre.length : Int) → right = (pre.length : Int) + (seg.length : Int) - 1 →
      seg.length - 1 ≤ fuel →
      ∃ s : List α, mergeSortFuel fuel (pre ++ seg ++ post) left right
          = Except.ok (pre ++ s ++ post) ∧ s.Sorted (· ≤ ·) ∧ s.Perm seg := by
  intro fuel
  induction fuel with
  | zero =>
    intro pre seg post left right hl hr hf
    refine ⟨seg, ?_, sorted_of_length_le_one seg (by omega), List.Perm.refl _⟩
    have : ¬ left < right := by omega
    simp [mergeSortFuel, this]
  | succ fuel ih =>
    intro pre seg post left right hl hr hf
    by_cases hlt : left < right
    · rw [mergeSortFuel, if_pos hlt]
      simp only []
      have hd : Int.tdiv (right - left) 2 = (((seg.length - 1) / 2 : Nat) : Int) := by
        rw [Int.tdiv_eq_ediv (by omega) (by omega)]
        omega
      rw [hd]
      have hh1 : (seg.length - 1) / 2 + 1 ≤ seg.length := by omega
      have hA : (seg.take ((seg.length - 1) / 2 + 1)).length = (seg.length - 1) / 2 + 1 := by
        simp; omega
      have hB : (seg.drop ((seg.length - 1) / 2 + 1)).length
          = seg.length - ((seg.length - 1) / 2 + 1) := by simp
      have hseg : seg = seg.take ((seg.length - 1) / 2 + 1) ++ seg.drop ((seg.length - 1) / 2 + 1) :=
        (List.take_append_drop _ _).symm
      generalize seg.take ((seg.length - 1) / 2 + 1) = A0 at hA hseg
      generalize seg.drop ((seg.length - 1) / 2 + 1) = B0 at hB hseg
      obtain ⟨s1, hrun1, hs1, hp1⟩ :=
        ih pre A0 (B0 ++ post) left (left + (((seg.length - 1) / 2 : Nat) : Int)) hl
          (by omega) (by omega)
      have e1 : pre ++ seg ++ post = pre ++ A0 ++ (B0 ++ post) := by rw [hseg]; simp
      rw [e1, hrun1]
      simp only []
      have hl1 : s1.length = A0.length := hp1.length_eq
      obtain ⟨s2, hrun2, hs2, hp2⟩ :=
        ih (pre ++ s1) B0 post (left + (((seg.length - 1) / 2 : Nat) : Int) + 1) right
          (by simp; omega) (by simp; omega) (by omega)
      have e2 : pre ++ s1 ++ (B0 ++ post) = pre ++ s1 ++ B0 ++ post := by simp
      rw [e2, hrun2]
      simp only []
      have hl2 : s2.length = B0.length := hp2.length_eq
      rw [merge_spec pre s1 s2 post left _ right hl (by omega) (by omega)]
      refine ⟨_, rfl, hs1.merge hs2, ?_⟩
      rw [hseg]
      exact (List.merge_perm_append _).trans (hp1.append hp2)
    · refine ⟨seg, ?_, sorted_of_length_le_one seg (by omega), List.Perm.refl _⟩
      simp [mergeSortFuel, hlt]

theorem mergeSort_of_ge (arr : List α) (left right : Int) (h : right ≤ left) :
    mergeSort arr left right = Except.ok arr := by
  have : ¬ left < right := by omega
  unfold mergeSort
  cases (right - left).toNat <;> simp [mergeSortFuel, this]

theorem mergeSort_decomp (arr : List α) (left right : Int) (h0 : 0 ≤ left)
    (h1 : left ≤ right) (h2 : right < (arr.length : Int)) :
    ∃ s : List α,
      mergeSort arr left right
        = Except.ok (arr.take left.toNat ++ s ++ arr.drop (right.toNat + 1)) ∧
      s.Sorted (· ≤ ·) ∧
      s.Perm ((arr.drop left.toNat).take (right.toNat + 1 - left.toNat)) ∧
      s.length = right.toNat + 1 - left.toNat := by
  have harr : arr = arr.take left.toNat
      ++ (arr.drop left.toNat).take (right.toNat + 1 - left.toNat)
      ++ arr.drop (right.toNat + 1) := by
    have e : arr.drop (right.toNat + 1)
        = (arr.drop left.toNat).drop (right.toNat + 1 - left.toNat) := by
      rw [List.drop_drop]; congr 1; omega
    rw [e, List.append_assoc, List.take_append_drop, List.take_append_drop]
  have hlen : ((arr.drop left.toNat).take (right.toNat + 1 - left.toNat)).length
      = right.toNat + 1 - left.toNat := by
    simp; omega
  obtain ⟨s, hrun, hs, hp⟩ :=
    mergeSortFuel_spec (right - left).toNat (arr.take left.toNat)
      ((arr.drop left.toNat).take (right.toNat + 1 - left.toNat))
      (arr.drop (right.toNat + 1)) left right
      (by simp; omega) (by rw [hlen]; simp; omega) (by rw [hlen]; omega)
  refine ⟨s, ?_, hs, hp, by rw [hp.length_eq, hlen]⟩
  unfold mergeSort
  rw [← harr] at hrun
  exact hrun

theorem sorted_getElem?_le (s : List α) (hs : s.Sorted (· ≤ ·)) (a b : Nat) (hab : a ≤ b)
    (x y : α) (hx : s[a]? = some x) (hy : s[b]? = some y) : x ≤ y := by
  obtain ⟨ha, rfl⟩ := List.getElem?_eq_some.mp hx
  obtain ⟨hb, rfl⟩ := List.getElem?_eq_some.mp hy
  rcases Nat.lt_or_eq_of_le hab with h | h
  · exact (List.pairwise_iff_getElem.mp hs) a b ha hb h
  · subst h; exact le_refl _

omit [LinearOrder α] in
theorem getElem?_middle (pre s post : List α) (i : Nat) (h1 : pre.length ≤ i)
    (h2 : i < pre.length + s.length) : (pre ++ s ++ post)[i]? = s[i - pre.length]? := by
  rw [List.append_assoc, List.getElem?_append_right h1, List.getElem?_append_left (by omega)]

/-- C1: for `0 ≤ left ≤ right < arr.size()`, `mergeSort(arr, left, right)` returns
normally, keeps the length, and leaves positions `left..right` in non-decreasing
order; when the range is the whole array, the whole array is non-decreasing. -/
theorem mergeSort_sorts_range (arr : List α) (left right : Int)
    (h0 : 0 ≤ left) (h1 : left ≤ right) (h2 : right < (arr.length : Int)) :
    ∃ arr1 : List α, mergeSort arr left right = Except.ok arr1 ∧
      arr1.length = arr.length ∧ SortedRange arr1 left right ∧
      (left = 0 → right = (arr.length : Int) - 1 → arr1.Sorted (· ≤ ·)) := by
  obtain ⟨s, hrun, hs, hp, hlen⟩ := mergeSort_decomp arr left right h0 h1 h2
  refine ⟨_, hrun, ?_, ?_, ?_⟩
  · simp [hlen]; omega
  · intro i j hi hij hj x y hx hy
    have hpre : (arr.take left.toNat).length = left.toNat := by simp; omega
    rw [getElem?_middle _ _ _ _ (by omega) (by omega)] at hx hy
    exact sorted_getElem?_le s hs _ _ (by omega) x y hx hy
  · intro hl hr
    subst hl
    have e1 : arr.drop (right.toNat + 1) = [] := by
      apply List.drop_eq_nil_of_le; omega
    simpa [e1] using hs

/-- Witness for C1 on the array `[5, 2, 9, 4, 4, 1]`, sorted over its whole range. -/
theorem mergeSort_sorts_range_witness :
    ∃ arr1 : List ℚ, mergeSort [5, 2, 9, 4, 4, 1] 0 5 = Except.ok arr1 ∧
      arr1.length = ([5, 2, 9, 4, 4, 1] : List ℚ).length ∧ SortedRange arr1 0 5 ∧
      ((0 : Int) = 0 → (5 : Int) = (([5, 2, 9, 4, 4, 1] : List ℚ).length : Int) - 1 →
        arr1.Sorted (· ≤ ·)) :=
  mergeSort_sorts_range [5, 2, 9, 4, 4, 1] 0 5 (by decide) (by decide) (by decide)

/-- C2: for `0 ≤ left ≤ right < arr.size()`, the array after
`mergeSort(arr, left, right)` is a permutation of the array before it: same
length, and every value occurs exactly as often as before. -/
theorem mergeSort_perm (arr : List α) (left right : Int)
    (h0 : 0 ≤ left) (h1 : left ≤ right) (h2 : right < (arr.length : Int)) :
    ∃ arr1 : List α, mergeSort arr left right = Except.ok arr1 ∧
      arr1.Perm arr ∧ arr1.length = arr.length ∧ ∀ x : α, arr1.count x = arr.count x := by
  obtain ⟨s, hrun, hs, hp, hlen⟩ := mergeSort_decomp arr left right h0 h1 h2
  have hperm : (arr.take left.toNat ++ s ++ arr.drop (right.toNat + 1)).Perm arr := by
    have harr : arr = arr.take left.toNat
        ++ (arr.drop left.toNat).take (right.toNat + 1 - left.toNat)
        ++ arr.drop (right.toNat + 1) := by
      have e : arr.drop (right.toNat + 1)
          = (arr.drop left.toNat).drop (right.toNat + 1 - left.toNat) := by
        rw [List.drop_drop]; congr 1; omega
      rw [e, List.append_assoc, List.take_append_drop, List.take_append_drop]
    conv_rhs => rw [harr]
    exact ((List.Perm.refl _).append hp).append (List.Perm.refl _)
  exact ⟨_, hrun, hperm, hperm.length_eq, fun x => hperm.count_eq x⟩

/-- Witness for C2 on an array with a tie, sorted over its whole range. -/
theorem mergeSort_perm_witness :
    ∃ arr1 : List ℚ, mergeSort [3, 1, 2, 5, 4, 4] 0 5 = Except.ok arr1 ∧
      arr1.Perm [3, 1, 2, 5, 4, 4] ∧ arr1.length = ([3, 1, 2, 5, 4, 4] : List ℚ).length ∧
      ∀ x : ℚ, arr1.count x = ([3, 1, 2, 5, 4, 4] : List ℚ).count x :=
  mergeSort_perm [3, 1, 2, 5, 4, 4] 0 5 (by decide) (by decide) (by decide)

/-- Sorting the whole of a non-empty array yields its non-decreasing rearrangement. -/
theorem mergeSort_whole (data T : List α) (hne : data ≠ []) (hs : T.Sorted (· ≤ ·))
    (hp : T.Perm data) : mergeSort data 0 ((data.length : Int) - 1) = Except.ok T := by
  have hpos : 0 < data.length := List.length_pos.mpr hne
  obtain ⟨s, hrun, hss, hsp, hlen⟩ :=
    mergeSort_decomp data 0 ((data.length : Int) - 1) (le_refl _) (by omega) (by omega)
  have e1 : data.drop (((data.length : Int) - 1).toNat + 1) = [] := by
    apply List.drop_eq_nil_of_le; omega
  have e2 : ((data.length : Int) - 1).toNat + 1 - (0 : Int).toNat = data.length := by
    simp; omega
  rw [e1] at hrun
  rw [e2] at hsp
  simp only [Int.toNat_zero, List.take_zero, List.nil_append, List.append_nil, List.drop_zero,
    List.take_length] at hrun hsp
  have : s = T := List.eq_of_perm_of_sorted (hsp.trans hp.symm) hss hs
  rw [hrun, this]

end SortProofs

section StatisticsProofs

variable {α : Type} [LinearOrderedField α]

/-- What `calculateMedian` does on a non-empty dataset whose non-decreasing
rearrangement is `T`: it leaves `T` in `data` and reads the middle of `T`. -/
theorem calculateMedian_spec (data T : List α) (hne : data ≠ [])
    (hs : T.Sorted (· ≤ ·)) (hp : T.Perm data) :
    ∃ v : α, calculateMedian data = Except.ok (v, T) ∧
      (data.length % 2 = 1 → T[data.length / 2]? = some v) ∧
      (data.length % 2 = 0 → ∃ a b : α, T[data.length / 2 - 1]? = some a ∧
        T[data.length / 2]? = some b ∧ v = (a + b) / 2) := by
  have hpos : 0 < data.length := List.length_pos.mpr hne
  have hlen : T.length = data.length := hp.length_eq
  have hemp : data.isEmpty = false := by
    cases data with
    | nil => exact absurd rfl hne
    | cons _ _ => rfl
  have hmod : Int.tmod (data.length : Int) 2 = ((data.length % 2 : Nat) : Int) := by
    rw [Int.tmod_eq_emod (by omega) (by omega)]; omega
  have hdiv : Int.tdiv (data.length : Int) 2 = ((data.length / 2 : Nat) : Int) := by
    rw [Int.tdiv_eq_ediv (by omega) (by omega)]; omega
  unfold calculateMedian
  simp only [hemp, Bool.false_eq_true, if_false]
  rw [mergeSort_whole data T hne hs hp, hmod, hdiv]
  simp only []
  by_cases hodd : data.length % 2 = 1
  · have hcond : ¬ (((data.length % 2 : Nat) : Int) = 0) := by omega
    rw [if_neg hcond, readAt_natCast T (data.length / 2) (by omega)]
    refine ⟨_, rfl, ?_, ?_⟩
    · intro _; exact List.getElem?_eq_getElem (by omega)
    · intro h; omega
  · have heven : data.length % 2 = 0 := by omega
    have hcond : (((data.length % 2 : Nat) : Int) = 0) := by omega
    have hidx : ((data.length / 2 : Nat) : Int) - 1 = ((data.length / 2 - 1 : Nat) : Int) := by
      omega
    rw [if_pos hcond, hidx, readAt_natCast T (data.length / 2 - 1) (by omega),
      readAt_natCast T (data.length / 2) (by omega)]
    refine ⟨_, rfl, ?_, ?_⟩
    · intro h; omega
    · intro _
      exact ⟨_, _, List.getElem?_eq_getElem (by omega), List.getElem?_eq_getElem (by omega), rfl⟩

/-- C3: on a non-empty dataset of `n` values, with `T` its non-decreasing
rearrangement, `calculateMedian` returns `T[n/2]` when `n` is odd and
`(T[n/2 - 1] + T[n/2]) / 2` when `n` is even. -/
theorem calculateMedian_conventional (data T : List α) (hne : data ≠ [])
    (hs : T.Sorted (· ≤ ·)) (hp : T.Perm data) :
    ∃ (v : α) (data1 : List α), calculateMedian data = Except.ok (v, data1) ∧
      (data.length % 2 = 1 → T[data.length / 2]? = some v) ∧
      (data.length % 2 = 0 → ∃ a b : α, T[data.length / 2 - 1]? = some a ∧
        T[data.length / 2]? = some b ∧ v = (a + b) / 2) := by
  obtain ⟨v, hrun, hodd, heven⟩ := calculateMedian_spec data T hne hs hp
  exact ⟨v, T, hrun, hodd, heven⟩

/-- Witness for C3 on the even-sized dataset `[3, 1, 2, 5, 4, 4]`. -/
theorem calculateMedian_conventional_witness :
    ∃ (v : ℚ) (data1 : List ℚ), calculateMedian [3, 1, 2, 5, 4, 4] = Except.ok (v, data1) ∧
      (([3, 1, 2, 5, 4, 4] : List ℚ).length % 2 = 1 →
        ([1, 2, 3, 4, 4, 5] : List ℚ)[([3, 1, 2, 5, 4, 4] : List ℚ).length / 2]? = some v) ∧
      (([3, 1, 2, 5, 4, 4] : List ℚ).length % 2 = 0 → ∃ a b : ℚ,
        ([1, 2, 3, 4, 4, 5] : List ℚ)[([3, 1, 2, 5, 4, 4] : List ℚ).length / 2 - 1]? = some a ∧
        ([1, 2, 3, 4, 4, 5] : List ℚ)[([3, 1, 2, 5, 4, 4] : List ℚ).length / 2]? = some b ∧
        v = (a + b) / 2) :=
  calculateMedian_conventional [3, 1, 2, 5, 4, 4] [1, 2, 3, 4, 4, 5] (by decide) (by decide)
    (by decide)

/-- C5: on the empty dataset the three statistics return `0` normally and the
dataset stays empty. -/
theorem statistics_of_empty :
    calculateMean ([] : List α) = (0, []) ∧
    calculateMedian ([] : List α) = Except.ok (0, []) ∧
    calculateMode ([] : List α) = (0, []) :=
  ⟨rfl, rfl, rfl⟩

theorem foldl_add_eq_sum (l : List α) : l.foldl (fun acc num => acc + num) 0 = l.sum := by
  rw [List.sum_eq_foldl]

theorem isEmpty_eq_false_of_ne_nil {β : Type} (l : List β) (h : l ≠ []) : l.isEmpty = false := by
  cases l with
  | nil => exact absurd rfl h
  | cons _ _ => rfl

/-- C6: on a non-empty dataset of `n` values `calculateMean` returns the sum of
all `n` values, each occurrence counted, divided by `n`. -/
theorem calculateMean_eq_sum_div (data : List α) (hne : data ≠ []) :
    (calculateMean data).1 = data.sum / (data.length : α) := by
  simp [calculateMean, isEmpty_eq_false_of_ne_nil data hne, foldl_add_eq_sum]

/-- Witness for C6: a dataset with a repeated value. -/
theorem calculateMean_eq_sum_div_witness :
    (calculateMean ([3, 1, 2, 5, 4, 4] : List ℚ)).1
      = ([3, 1, 2, 5, 4, 4] : List ℚ).sum / ((([3, 1, 2, 5, 4, 4] : List ℚ).length : ℕ) : ℚ) :=
  calculateMean_eq_sum_div [3, 1, 2, 5, 4, 4] (by decide)

theorem mapIncrement_keys (freq : List (α × Int)) (x k : α) :
    k ∈ (mapIncrement freq x).map Prod.fst ↔ k = x ∨ k ∈ freq.map Prod.fst := by
  induction freq with
  | nil => simp [mapIncrement]
  | cons e rest ih =>
    obtain ⟨key, cnt⟩ := e
    unfold mapIncrement
    by_cases h1 : x < key
    · simp [h1]
    · by_cases h2 : key < x
      · simp only [if_neg h1, if_pos h2, List.map_cons, List.mem_cons, ih]
        tauto
      · have hk : key = x := le_antisymm (not_lt.mp h1) (not_lt.mp h2)
        simp only [if_neg h1, if_neg h2, List.map_cons, List.mem_cons]
        subst hk
        tauto

theorem mapIncrement_sorted (freq : List (α × Int)) (x : α)
    (hs : (freq.map Prod.fst).Sorted (· < ·)) :
    ((mapIncrement freq x).map Prod.fst).Sorted (· < ·) := by
  induction freq with
  | nil => simp [mapIncrement]
  | cons e rest ih =>
    obtain ⟨key, cnt⟩ := e
    simp only [List.map_cons, List.sorted_cons] at hs
    obtain ⟨hhead, htail⟩ := hs
    unfold mapIncrement
    by_cases h1 : x < key
    · simp only [if_pos h1, List.map_cons, List.sorted_cons, List.mem_cons]
      refine ⟨?_, hhead, htail⟩
      rintro b (rfl | hb)
      · exact h1
      · exact lt_trans h1 (hhead b hb)
    · by_cases h2 : key < x
      · simp only [if_neg h1, if_pos h2, List.map_cons, List.sorted_cons]
        refine ⟨?_, ih htail⟩
        intro b hb
        rcases (mapIncrement_keys rest x b).mp hb with rfl | hb
        · exact h2
        · exact hhead b hb
      · simp only [if_neg h1, if_neg h2, List.map_cons, List.sorted_cons]
        exact ⟨hhead, htail⟩

theorem entryCount_of_not_mem (freq : List (α × Int)) (k : α)
    (h : k ∉ freq.map Prod.fst) : entryCount freq k = 0 := by
  induction freq with
  | nil => rfl
  | cons e rest ih =>
    obtain ⟨key, cnt⟩ := e
    simp only [List.map_cons, List.mem_cons, not_or] at h
    simp [entryCount, Ne.symm h.1, ih h.2]

theorem entryCount_mapIncrement (freq : List (α × Int)) (x k : α)
    (hs : (freq.map Prod.fst).Sorted (· < ·)) :
    entryCount (mapIncrement freq x) k = entryCount freq k + (if k = x then 1 else 0) := by
  induction freq with
  | nil =>
    by_cases h : k = x
    · subst h; simp [mapIncrement, entryCount]
    · simp [mapIncrement, entryCount, h, Ne.symm h]
  | cons e rest ih =>
    obtain ⟨key, cnt⟩ := e
    simp only [List.map_cons, List.sorted_cons] at hs
    obtain ⟨hhead, htail⟩ := hs
    unfold mapIncrement
    by_cases h1 : x < key
    · simp only [if_pos h1]
      by_cases h : k = x
      · subst h
        have hnot : k ∉ ((key, cnt) :: rest).map Prod.fst := by
          simp only [List.map_cons, List.mem_cons, not_or]
          refine ⟨ne_of_lt h1, fun hm => ?_⟩
          exact absurd (lt_trans h1 (hhead k hm)) (lt_irrefl _)
        rw [entryCount_of_not_mem _ _ hnot]
        simp [entryCount]
      · rw [entryCount]
        simp [h, Ne.symm h]
    · by_cases h2 : key < x
      · simp only [if_neg h1, if_pos h2]
        rw [entryCount, entryCount, ih htail]
        by_cases hk : key = k
        · subst hk
          simp [ne_of_lt h2]
        · simp [hk]
      · have hkx : key = x := le_antisymm (not_lt.mp h1) (not_lt.mp h2)
        simp only [if_neg h1, if_neg h2]
        rw [entryCount, entryCount]
        subst hkx
        by_cases hk : key = k
        · subst hk; simp
        · simp [hk, Ne.symm hk]

theorem entryCount_of_mem (freq : List (α × Int)) (k : α) (c : Int)
    (hs : (freq.map Prod.fst).Sorted (· < ·)) (h : (k, c) ∈ freq) :
    entryCount freq k = c := by
  induction freq with
  | nil => simp at h
  | cons e rest ih =>
    obtain ⟨key, cnt⟩ := e
    simp only [List.map_cons, List.sorted_cons] at hs
    obtain ⟨hhead, htail⟩ := hs
    rcases List.mem_cons.mp h with heq | hmem
    · obtain ⟨rfl, rfl⟩ := Prod.mk.inj heq
      simp [entryCount]
    · have hk : key ≠ k := by
        have : k ∈ rest.map Prod.fst := List.mem_map.mpr ⟨(k, c), hmem, rfl⟩
        exact ne_of_lt (hhead k this)
      rw [entryCount, if_neg hk]
      exact ih htail hmem

theorem foldl_mapIncrement (data : List α) :
    ∀ freq0 : List (α × Int), (freq0.map Prod.fst).Sorted (· < ·) →
      ((data.foldl mapIncrement freq0).map Prod.fst).Sorted (· < ·) ∧
      (∀ k, entryCount (data.foldl mapIncrement freq0) k
        = entryCount freq0 k + (data.count k : Int)) ∧
      (∀ k, k ∈ (data.foldl mapIncrement freq0).map Prod.fst
        ↔ k ∈ freq0.map Prod.fst ∨ k ∈ data) := by
  induction data with
  | nil => intro freq0 hs; simp [hs]
  | cons x rest ih =>
    intro freq0 hs
    obtain ⟨h1, h2, h3⟩ := ih (mapIncrement freq0 x) (mapIncrement_sorted freq0 x hs)
    refine ⟨h1, ?_, ?_⟩
    · intro k
      rw [List.foldl_cons, h2 k, entryCount_mapIncrement freq0 x k hs, List.count_cons]
      by_cases hk : k = x
      · subst hk; simp; ring
      · have : ¬ (x == k) = true := by simpa using Ne.symm hk
        simp [hk, this]
    · intro k
      rw [List.foldl_cons, h3 k, mapIncrement_keys]
      simp only [List.mem_cons]
      tauto

omit [LinearOrderedField α] in
theorem le_scanMax (freq : List (α × Int)) : ∀ m : Int, m ≤ scanMax freq m := by
  induction freq with
  | nil => intro m; exact le_refl _
  | cons e rest ih =>
    intro m
    obtain ⟨key, cnt⟩ := e
    exact le_trans (le_max_left m cnt) (ih (max m cnt))

omit [LinearOrderedField α] in
theorem entry_le_scanMax (freq : List (α × Int)) :
    ∀ (m : Int) (e : α × Int), e ∈ freq → e.2 ≤ scanMax freq m := by
  induction freq with
  | nil => intro m e he; simp at he
  | cons e0 rest ih =>
    intro m e he
    obtain ⟨key, cnt⟩ := e0
    rcases List.mem_cons.mp he with rfl | hmem
    · exact le_trans (le_max_right m cnt) (le_scanMax rest (max m cnt))
    · exact ih (max m cnt) e hmem

omit [LinearOrderedField α] in
theorem scanMax_attained (freq : List (α × Int)) :
    ∀ m : Int, scanMax freq m = m ∨ ∃ e ∈ freq, e.2 = scanMax freq m := by
  induction freq with
  | nil => intro m; exact Or.inl rfl
  | cons e0 rest ih =>
    intro m
    obtain ⟨key, cnt⟩ := e0
    rcases ih (max m cnt) with h | ⟨e, he, h⟩
    · rcases le_total m cnt with hmc | hmc
      · right
        refine ⟨(key, cnt), List.mem_cons_self _ _, ?_⟩
        show cnt = scanMax rest (max m cnt)
        rw [h, max_eq_right hmc]
      · left
        show scanMax rest (max m cnt) = m
        rw [h, max_eq_left hmc]
    · exact Or.inr ⟨e, List.mem_cons_of_mem _ he, h⟩

omit [LinearOrderedField α] in
theorem modeScan_eq (freq : List (α × Int)) :
    ∀ (m : Int) (ms : List α), modeScan freq m ms
      = (scanMax freq m, (if scanMax freq m = m then ms else [])
          ++ (freq.filter (fun e => decide (e.2 = scanMax freq m))).map Prod.fst) := by
  induction freq with
  | nil => intro m ms; simp [modeScan, scanMax]
  | cons e0 rest ih =>
    intro m ms
    obtain ⟨key, cnt⟩ := e0
    have hM : scanMax ((key, cnt) :: rest) m = scanMax rest (max m cnt) := rfl
    have hge := le_scanMax rest (max m cnt)
    rw [hM]
    unfold modeScan
    by_cases h1 : cnt > m
    · have hmax : max m cnt = cnt := max_eq_right (le_of_lt h1)
      rw [if_pos h1, ih cnt [key]]
      rw [hmax] at hge ⊢
      have hne : ¬ scanMax rest cnt = m := by omega
      rw [if_neg hne]
      by_cases hc : scanMax rest cnt = cnt
      · simp [hc, List.filter_cons]
      · simp [hc, List.filter_cons, Ne.symm hc]
    · by_cases h2 : cnt = m
      · subst h2
        have hmax : max cnt cnt = cnt := max_self cnt
        rw [if_neg h1, if_pos rfl, ih cnt (ms ++ [key])]
        rw [hmax] at hge ⊢
        by_cases hc : scanMax rest cnt = cnt
        · simp [hc, List.filter_cons]
        · simp [hc, List.filter_cons, Ne.symm hc]
      · have hlt : cnt < m := by omega
        have hmax : max m cnt = m := max_eq_left (le_of_lt hlt)
        rw [if_neg h1, if_neg h2, ih m ms]
        rw [hmax] at hge ⊢
        have hne : ¬ cnt = scanMax rest m := by omega
        simp [List.filter_cons, hne]

theorem le_foldr_max (l : List Nat) : ∀ a ∈ l, a ≤ l.foldr max 0 := by
  induction l with
  | nil => intro a ha; simp at ha
  | cons b rest ih =>
    intro a ha
    rcases List.mem_cons.mp ha with rfl | hmem
    · exact le_max_left _ _
    · exact le_trans (ih a hmem) (le_max_right _ _)

theorem foldr_max_mem (l : List Nat) (hne : l ≠ []) : l.foldr max 0 ∈ l := by
  induction l with
  | nil => exact absurd rfl hne
  | cons b rest ih =>
    by_cases hr : rest = []
    · subst hr; simp
    · rcases le_total b (rest.foldr max 0) with h | h
      · rw [List.foldr_cons, max_eq_right h]
        exact List.mem_cons_of_mem _ (ih hr)
      · rw [List.foldr_cons, max_eq_left h]
        exact List.mem_cons_self _ _

omit [LinearOrderedField α] in
theorem count_le_maxOccurrence [DecidableEq α] (data : List α) (x : α) (hx : x ∈ data) :
    data.count x ≤ (data.map (fun y => data.count y)).foldr max 0 :=
  le_foldr_max _ _ (List.mem_map.mpr ⟨x, hx, rfl⟩)

theorem maxOccurrence_attained (data : List α) (hne : data ≠ []) :
    ∃ x ∈ data, data.count x = maxOccurrence data := by
  have h := foldr_max_mem (data.map (fun y => data.count y)) (by simpa using hne)
  obtain ⟨x, hx, hxe⟩ := List.mem_map.mp h
  exact ⟨x, hx, hxe⟩

/-- The candidate list built by `calculateMode`: it holds, without repetition,
exactly the values of maximal occurrence count. -/
theorem modes_spec (data : List α) (hne : data ≠ []) :
    ((modeScan (data.foldl mapIncrement []) 0 []).2).Nodup ∧
    ((modeScan (data.foldl mapIncrement []) 0 []).2).toFinset = modeSet data := by
  obtain ⟨hsorted, hcount, hkeys⟩ := foldl_mapIncrement data [] (by simp)
  generalize data.foldl mapIncrement [] = freq at hsorted hcount hkeys
  have hentry : ∀ e ∈ freq, e.1 ∈ data ∧ e.2 = (data.count e.1 : Int) := by
    intro e he
    obtain ⟨k, c⟩ := e
    refine ⟨?_, ?_⟩
    · have := (hkeys k).mp (List.mem_map.mpr ⟨(k, c), he, rfl⟩)
      simpa using this
    · have h1 := entryCount_of_mem freq k c hsorted he
      have h2 := hcount k
      simp only [entryCount, zero_add] at h2
      rw [← h1, h2]
  have hhas : ∀ x ∈ data, (x, (data.count x : Int)) ∈ freq := by
    intro x hx
    have := (hkeys x).mpr (Or.inr hx)
    obtain ⟨e, he, hex⟩ := List.mem_map.mp this
    obtain ⟨k, c⟩ := e
    simp only at hex
    subst hex
    have := (hentry (k, c) he).2
    simp only at this
    rw [← this]
    exact he
  have hM : scanMax freq 0 = (maxOccurrence data : Int) := by
    apply le_antisymm
    · rcases scanMax_attained freq 0 with h | ⟨e, he, h⟩
      · rw [h]; exact Int.ofNat_nonneg _
      · rw [← h, (hentry e he).2]
        exact_mod_cast count_le_maxOccurrence data e.1 (hentry e he).1
    · obtain ⟨x, hx, hxe⟩ := maxOccurrence_attained data hne
      rw [← hxe]
      exact entry_le_scanMax freq 0 _ (hhas x hx)
  rw [modeScan_eq]
  simp only [ite_self, List.nil_append]
  refine ⟨?_, ?_⟩
  · exact List.Nodup.sublist ((List.filter_sublist freq).map Prod.fst) hsorted.nodup
  · ext x
    simp only [List.mem_toFinset, List.mem_map, List.mem_filter, decide_eq_true_eq, modeSet,
      Finset.mem_filter]
    constructor
    · rintro ⟨e, ⟨he, heM⟩, rfl⟩
      refine ⟨(hentry e he).1, ?_⟩
      have := (hentry e he).2
      rw [heM, hM] at this
      exact_mod_cast this.symm
    · rintro ⟨hx, hc⟩
      refine ⟨(x, (data.count x : Int)), ⟨hhas x hx, ?_⟩, rfl⟩
      rw [hM, hc]

/-- The value of `calculateMode` on a non-empty dataset is the mean of the set of
values of maximal occurrence count. -/
theorem calculateMode_spec (data : List α) (hne : data ≠ []) :
    (calculateMode data).1 = modeSpec data := by
  obtain ⟨hnodup, hset⟩ := modes_spec data hne
  simp only [calculateMode, isEmpty_eq_false_of_ne_nil data hne, Bool.false_eq_true, if_false,
    foldl_add_eq_sum, modeSpec]
  rw [← hset, List.toFinset_card_of_nodup hnodup, List.sum_toFinset (fun x => x) hnodup,
    List.map_id']

/-- C4: on a non-empty dataset `calculateMode` returns the arithmetic mean of
the set of distinct values whose occurrence count is the maximum occurrence
count; so a single most frequent value is returned as it is (mode of
`5,5,5,2,2` is `5`) and a tie gives the average of the tied values (mode of
`1,1,2,2,3` is `3/2`). -/
theorem calculateMode_eq_modeSpec (data : List α) (hne : data ≠ []) :
    (calculateMode data).1 = modeSpec data ∧
    (∀ m : α, modeSet data = {m} → (calculateMode data).1 = m) ∧
    (calculateMode ([5, 5, 5, 2, 2] : List α)).1 = 5 ∧
    (calculateMode ([1, 1, 2, 2, 3] : List α)).1 = 3 / 2 := by
  have hmain : (calculateMode data).1 = modeSpec data := calculateMode_spec data hne
  refine ⟨hmain, ?_, ?_, ?_⟩
  · intro m hm
    rw [hmain, modeSpec, hm]
    simp
  · norm_num [calculateMode, mapIncrement, modeScan]
  · norm_num [calculateMode, mapIncrement, modeScan]

/-- Witness for C4: a dataset whose two most frequent values, `1` and `7`, are
not neighbours in value order. -/
theorem calculateMode_eq_modeSpec_witness :
    (calculateMode ([1, 7, 3, 7, 1] : List ℚ)).1 = modeSpec ([1, 7, 3, 7, 1] : List ℚ) ∧
    (∀ m : ℚ, modeSet ([1, 7, 3, 7, 1] : List ℚ) = {m} →
      (calculateMode ([1, 7, 3, 7, 1] : List ℚ)).1 = m) ∧
    (calculateMode ([5, 5, 5, 2, 2] : List ℚ)).1 = 5 ∧
    (calculateMode ([1, 1, 2, 2, 3] : List ℚ)).1 = 3 / 2 :=
  calculateMode_eq_modeSpec [1, 7, 3, 7, 1] (by decide)

theorem calculateMean_snd (data : List α) : (calculateMean data).2 = data := by
  unfold calculateMean
  split <;> rfl

theorem calculateMode_snd (data : List α) : (calculateMode data).2 = data := by
  unfold calculateMode
  split <;> rfl

theorem maxOccurrence_le_of_perm (T data : List α) (hp : T.Perm data) :
    maxOccurrence T ≤ maxOccurrence data := by
  by_cases hT : T = []
  · subst hT; exact Nat.zero_le _
  · obtain ⟨x, hx, hxe⟩ := maxOccurrence_attained T hT
    rw [← hxe, hp.count_eq x]
    exact count_le_maxOccurrence data x (hp.subset hx)

theorem maxOccurrence_perm (T data : List α) (hp : T.Perm data) :
    maxOccurrence T = maxOccurrence data :=
  le_antisymm (maxOccurrence_le_of_perm T data hp) (maxOccurrence_le_of_perm data T hp.symm)

theorem modeSet_perm (T data : List α) (hp : T.Perm data) : modeSet T = modeSet data := by
  ext x
  simp only [modeSet, Finset.mem_filter, List.mem_toFinset, hp.mem_iff, hp.count_eq x,
    maxOccurrence_perm T data hp]

theorem modeSpec_perm (T data : List α) (hp : T.Perm data) : modeSpec T = modeSpec data := by
  simp only [modeSpec, modeSet_perm T data hp]

end StatisticsProofs

section InputProofs

theorem scanFloat_eq (s : List Char) :
    scanFloat s =
      { sign := (scanSign s).1,
        intDigits := (scanSign s).2.takeWhile Char.isDigit,
        point := (scanFraction ((scanSign s).2.dropWhile Char.isDigit)).1,
        fracDigits := (scanFraction ((scanSign s).2.dropWhile Char.isDigit)).2.1,
        expMark := (scanExponent
          (!((scanSign s).2.takeWhile Char.isDigit).isEmpty
            || !(scanFraction ((scanSign s).2.dropWhile Char.isDigit)).2.1.isEmpty)
          (scanFraction ((scanSign s).2.dropWhile Char.isDigit)).2.2).1,
        expSign := (scanExponent
          (!((scanSign s).2.takeWhile Char.isDigit).isEmpty
            || !(scanFraction ((scanSign s).2.dropWhile Char.isDigit)).2.1.isEmpty)
          (scanFraction ((scanSign s).2.dropWhile Char.isDigit)).2.2).2.1,
        expDigits := (scanExponent
          (!((scanSign s).2.takeWhile Char.isDigit).isEmpty
            || !(scanFraction ((scanSign s).2.dropWhile Char.isDigit)).2.1.isEmpty)
          (scanFraction ((scanSign s).2.dropWhile Char.isDigit)).2.2).2.2.1,
        rest := (scanExponent
          (!((scanSign s).2.takeWhile Char.isDigit).isEmpty
            || !(scanFraction ((scanSign s).2.dropWhile Char.isDigit)).2.1.isEmpty)
          (scanFraction ((scanSign s).2.dropWhile Char.isDigit)).2.2).2.2.2 } :=
  rfl

theorem allDigits_takeWhile (s : List Char) : AllDigits (s.takeWhile Char.isDigit) :=
  fun _ hc => List.mem_takeWhile_imp hc

theorem scanSign_sound (s : List Char) :
    ∃ sg : List Char, IsOptSign sg ∧ s = sg ++ (scanSign s).2 := by
  cases s with
  | nil => exact ⟨[], Or.inl rfl, rfl⟩
  | cons c rest =>
    simp only [scanSign]
    by_cases h : (c == '+' || c == '-') = true
    · rw [if_pos h]
      simp only [Bool.or_eq_true, beq_iff_eq] at h
      rcases h with rfl | rfl
      · exact ⟨['+'], Or.inr (Or.inl rfl), rfl⟩
      · exact ⟨['-'], Or.inr (Or.inr rfl), rfl⟩
    · rw [if_neg h]
      exact ⟨[], Or.inl rfl, rfl⟩

theorem scanFraction_sound (s : List Char) :
    AllDigits (scanFraction s).2.1 ∧
    (((scanFraction s).2.1 = [] ∧ s = (scanFraction s).2.2) ∨
      s = '.' :: ((scanFraction s).2.1 ++ (scanFraction s).2.2)) := by
  cases s with
  | nil => exact ⟨fun _ h => by simp [scanFraction] at h, Or.inl ⟨rfl, rfl⟩⟩
  | cons c rest =>
    simp only [scanFraction]
    by_cases h : (c == '.') = true
    · rw [if_pos h]
      simp only [beq_iff_eq] at h
      subst h
      exact ⟨allDigits_takeWhile rest,
        Or.inr (by rw [List.takeWhile_append_dropWhile])⟩
    · rw [if_neg h]
      exact ⟨fun _ h => by simp at h, Or.inl ⟨rfl, rfl⟩⟩

theorem scanExponent_sound (b : Bool) (s : List Char) :
    AllDigits (scanExponent b s).2.2.1 ∧
    (((scanExponent b s).1 = false ∧ s = (scanExponent b s).2.2.2) ∨
      ((scanExponent b s).1 = true ∧ ∃ (m : Char) (es : List Char), (m = 'e' ∨ m = 'E') ∧
        IsOptSign es ∧
        s = m :: (es ++ ((scanExponent b s).2.2.1 ++ (scanExponent b s).2.2.2)))) := by
  cases s with
  | nil => exact ⟨fun _ h => by simp [scanExponent] at h, Or.inl ⟨rfl, rfl⟩⟩
  | cons c rest =>
    simp only [scanExponent]
    by_cases h : (b && (c == 'e' || c == 'E')) = true
    · rw [if_pos h]
      simp only [Bool.and_eq_true, Bool.or_eq_true, beq_iff_eq] at h
      obtain ⟨es, hes, hrest⟩ := scanSign_sound rest
      refine ⟨allDigits_takeWhile _, Or.inr ⟨rfl, c, es, h.2, hes, ?_⟩⟩
      simp only []
      rw [List.takeWhile_append_dropWhile, ← hrest]
    · rw [if_neg h]
      exact ⟨fun _ h => by simp at h, Or.inl ⟨rfl, rfl⟩⟩

/-- A scan that uses up its input and converts has read a numeral. -/
theorem isRealNumeral_of_scan (s : List Char) (hrest : (scanFloat s).rest = [])
    (hconv : (scanFloat s).converts = true) : IsRealNumeral s := by
  rw [scanFloat_eq] at hrest hconv
  simp only [FloatField.converts] at hconv
  obtain ⟨sg, hsg, hs⟩ := scanSign_sound s
  generalize (scanSign s).2 = s1 at hrest hconv hs
  have hs1 := (List.takeWhile_append_dropWhile Char.isDigit s1).symm
  have hip := allDigits_takeWhile s1
  generalize s1.takeWhile Char.isDigit = ip at hrest hconv hs1 hip
  obtain ⟨hfd, hfrac⟩ := scanFraction_sound (s1.dropWhile Char.isDigit)
  generalize s1.dropWhile Char.isDigit = s2 at hrest hconv hs1 hfd hfrac
  generalize hfr : scanFraction s2 = fr at hrest hconv hfd hfrac
  obtain ⟨pt, fd, s3⟩ := fr
  simp only at hrest hconv hfd hfrac
  obtain ⟨hed, hexp⟩ := scanExponent_sound (!ip.isEmpty || !fd.isEmpty) s3
  generalize hex : scanExponent (!ip.isEmpty || !fd.isEmpty) s3 = er at hrest hconv hed hexp
  obtain ⟨em, es, ed, s4⟩ := er
  simp only at hrest hconv hed hexp
  subst hrest
  simp only [List.append_nil] at hexp
  simp only [Bool.and_eq_true, Bool.or_eq_true, Bool.not_eq_true', List.isEmpty_eq_false,
    ] at hconv
  -- the fraction part and the exponent part as strings
  have hmant : ip ≠ [] ∨ fd ≠ [] := by
    rcases hconv.1 with h | h
    · left; intro h0; subst h0; simp at h
    · right; intro h0; subst h0; simp at h
  have hexp2 : s3 = [] ∨ ∃ (m : Char) (es ed : List Char), s3 = m :: (es ++ ed) ∧
      (m = 'e' ∨ m = 'E') ∧ IsOptSign es ∧ AllDigits ed ∧ ed ≠ [] := by
    rcases hexp with ⟨hem, h3⟩ | ⟨hem, m, es1, hm, hes1, h3⟩
    · exact Or.inl h3
    · right
      refine ⟨m, es1, ed, h3, hm, hes1, hed, ?_⟩
      rcases hconv.2 with h | h
      · rw [hem] at h; simp at h
      · intro h0; subst h0; simp at h
  rcases hfrac with ⟨hfd0, h2⟩ | h2
  · subst hfd0
    have hip0 : ip ≠ [] := by
      rcases hmant with h | h
      · exact h
      · exact absurd rfl h
    refine ⟨sg, ip, [], s3, ?_, hsg, hip, Or.inl rfl, Or.inl hip0, hexp2⟩
    rw [hs, hs1, h2]; simp
  · refine ⟨sg, ip, '.' :: fd, s3, ?_, hsg, hip, Or.inr ⟨fd, rfl, hfd⟩, ?_, hexp2⟩
    · rw [hs, hs1, h2]; simp
    · rcases hmant with h | h
      · exact Or.inl h
      · right
        cases fd with
        | nil => exact absurd rfl h
        | cons d fd1 => exact ⟨d, fd1, rfl⟩

theorem span_digits (ds rest : List Char) (hds : AllDigits ds)
    (hrest : ∀ (c : Char) (r : List Char), rest = c :: r → c.isDigit = false) :
    (ds ++ rest).takeWhile Char.isDigit = ds ∧ (ds ++ rest).dropWhile Char.isDigit = rest := by
  have h : rest.takeWhile Char.isDigit = [] ∧ rest.dropWhile Char.isDigit = rest := by
    cases rest with
    | nil => exact ⟨rfl, rfl⟩
    | cons c r =>
      have hc := hrest c r rfl
      simp [List.takeWhile_cons, List.dropWhile_cons, hc]
  rw [List.takeWhile_append_of_pos hds, List.dropWhile_append_of_pos hds, h.1, h.2]
  simp

theorem scanSign_complete (sg rest : List Char) (hsg : IsOptSign sg)
    (hrest : ∀ (c : Char) (r : List Char), rest = c :: r → (c == '+' || c == '-') = false) :
    (scanSign (sg ++ rest)).2 = rest := by
  rcases hsg with rfl | rfl | rfl
  · cases rest with
    | nil => rfl
    | cons c r =>
      have hc := hrest c r rfl
      simp only [List.nil_append, scanSign, hc, Bool.false_eq_true, if_false]
  · rfl
  · rfl

theorem digit_not_sign (c : Char) (h : c.isDigit = true) : (c == '+' || c == '-') = false := by
  by_contra hc
  simp only [Bool.not_eq_false, Bool.or_eq_true, beq_iff_eq] at hc
  rcases hc with rfl | rfl
  · exact absurd h (by decide)
  · exact absurd h (by decide)

theorem digit_not_space (c : Char) (h : c.isDigit = true) : isSpace c = false := by
  by_contra hc
  simp only [Bool.not_eq_false, isSpace, Bool.or_eq_true, beq_iff_eq] at hc
  rcases hc with ((((rfl | rfl) | rfl) | rfl) | rfl) | rfl <;> exact absurd h (by decide)

/-- The scan of a numeral uses up the input and converts. -/
theorem scan_of_isRealNumeral (s : List Char) (h : IsRealNumeral s) :
    (scanFloat s).rest = [] ∧ (scanFloat s).converts = true := by
  obtain ⟨sg, ip, fp, ex, hs, hsg, hip, hfp, hmant, hex⟩ := h
  -- the exponent part does not begin with a digit or a point
  have hexHead : ∀ (c : Char) (r : List Char), ex = c :: r → c = 'e' ∨ c = 'E' := by
    intro c r hcr
    rcases hex with h0 | ⟨m, es, ed, hm, hme, -, -, -⟩
    · rw [h0] at hcr; cases hcr
    · rw [hm] at hcr
      obtain ⟨rfl, -⟩ := List.cons.inj hcr
      exact hme
  have hexDigit : ∀ (c : Char) (r : List Char), ex = c :: r → c.isDigit = false := by
    intro c r hcr
    rcases hexHead c r hcr with rfl | rfl <;> decide
  -- the sign
  have h1 : (scanSign s).2 = ip ++ (fp ++ ex) := by
    rw [hs]
    apply scanSign_complete sg _ hsg
    intro c r hcr
    rcases hmant with hne | ⟨d, fd, hfd⟩
    · cases ip with
      | nil => exact absurd rfl hne
      | cons c0 ip0 =>
        obtain ⟨rfl, -⟩ := List.cons.inj hcr
        exact digit_not_sign _ (hip _ (List.mem_cons_self _ _))
    · cases ip with
      | nil =>
        rw [hfd] at hcr
        obtain ⟨rfl, -⟩ := List.cons.inj hcr
        decide
      | cons c0 ip0 =>
        obtain ⟨rfl, -⟩ := List.cons.inj hcr
        exact digit_not_sign _ (hip _ (List.mem_cons_self _ _))
  -- the integer digits
  have h2 := span_digits ip (fp ++ ex) hip (by
    intro c r hcr
    rcases hfp with h0 | ⟨fd, hfd, -⟩
    · rw [h0] at hcr; exact hexDigit c r hcr
    · rw [hfd] at hcr
      obtain ⟨rfl, -⟩ := List.cons.inj hcr
      decide)
  -- the fraction
  have h3 : ∃ fd : List Char, scanFraction (fp ++ ex) = (fp != [], fd, ex) ∧
      (ip ≠ [] ∨ fd ≠ []) := by
    rcases hfp with h0 | ⟨fd, hfd, hfdd⟩
    · subst h0
      have hipne : ip ≠ [] := by
        rcases hmant with hne | ⟨d, fd, hfd⟩
        · exact hne
        · cases hfd
      refine ⟨[], ?_, Or.inl hipne⟩
      cases ex with
      | nil => rfl
      | cons c r =>
        have hc : (c == '.') = false := by
          rcases hexHead c r rfl with rfl | rfl <;> decide
        simp [scanFraction, hc]
    · subst hfd
      obtain ⟨e1, e2⟩ := span_digits fd ex hfdd hexDigit
      refine ⟨fd, ?_, ?_⟩
      · simp only [List.cons_append, scanFraction, beq_self_eq_true, if_true, e1, e2]
        rfl
      · rcases hmant with hne | ⟨d, fd0, hfd0⟩
        · exact Or.inl hne
        · right
          obtain ⟨-, rfl⟩ := List.cons.inj hfd0
          exact List.cons_ne_nil _ _
  obtain ⟨fd, hfrac, hmant2⟩ := h3
  have hb : (!ip.isEmpty || !fd.isEmpty) = true := by
    rcases hmant2 with h | h
    · cases ip with
      | nil => exact absurd rfl h
      | cons _ _ => rfl
    · cases fd with
      | nil => exact absurd rfl h
      | cons _ _ => simp
  -- the exponent
  have h4 : ∃ (em : Bool) (es : Option Char) (ed : List Char),
      scanExponent true ex = (em, es, ed, []) ∧ (em = false ∨ ed ≠ []) := by
    rcases hex with h0 | ⟨m, es, ed, hm, hme, hes, hed, hedne⟩
    · subst h0
      exact ⟨false, none, [], rfl, Or.inl rfl⟩
    · subst hm
      have hc : (m == 'e' || m == 'E') = true := by
        rcases hme with rfl | rfl <;> decide
      have e0 : (scanSign (es ++ ed)).2 = ed := by
        apply scanSign_complete es ed hes
        intro c r hcr
        subst hcr
        exact digit_not_sign _ (hed _ (List.mem_cons_self _ _))
      have e1 : ed.takeWhile Char.isDigit = ed := List.takeWhile_eq_self_iff.mpr hed
      have e2 : ed.dropWhile Char.isDigit = [] := List.dropWhile_eq_nil_iff.mpr hed
      refine ⟨true, (scanSign (es ++ ed)).1, ed, ?_, Or.inr hedne⟩
      simp only [scanExponent, Bool.true_and, hc, if_true, e0, e1, e2]
  obtain ⟨em, es, ed, hexp, hconv⟩ := h4
  rw [scanFloat_eq]
  simp only [FloatField.converts, h1, h2.1, h2.2, hfrac, hb, hexp, Bool.true_and]
  refine ⟨trivial, ?_⟩
  rcases hconv with h | h
  · subst h; rfl
  · cases ed with
    | nil => exact absurd rfl h
    | cons _ _ => simp

theorem isRealNumeral_head (s : List Char) (h : IsRealNumeral s) :
    ∃ (c : Char) (r : List Char), s = c :: r ∧ isSpace c = false := by
  obtain ⟨sg, ip, fp, ex, hs, hsg, hip, hfp, hmant, hex⟩ := h
  rcases hsg with rfl | rfl | rfl
  · cases ip with
    | nil =>
      rcases hmant with hne | ⟨d, fd, hfd⟩
      · exact absurd rfl hne
      · subst hfd
        exact ⟨'.', _, hs, by decide⟩
    | cons c0 ip0 =>
      exact ⟨c0, _, hs, digit_not_space _ (hip _ (List.mem_cons_self _ _))⟩
  · exact ⟨'+', _, hs, by decide⟩
  · exact ⟨'-', _, hs, by decide⟩

/-- What `isValidNumber` decides: leading white space is skipped, the rest of
the token must be one decimal numeral up to the last character, and the value
of the numeral must not overflow a `double`. -/
theorem isValidNumber_iff_numeral_in_range (tok : List Char) :
    isValidNumber tok = true ↔
      tok ≠ [] ∧ ∃ ws body : List Char, tok = ws ++ body ∧ (∀ c ∈ ws, isSpace c = true) ∧
        IsRealNumeral body ∧ |numeralValue body| < overflowThreshold := by
  constructor
  · intro h
    have hne : tok ≠ [] := by
      intro h0; subst h0; simp [isValidNumber] at h
    refine ⟨hne, tok.takeWhile isSpace, tok.dropWhile isSpace,
      (List.takeWhile_append_dropWhile isSpace tok).symm,
      fun c hc => List.mem_takeWhile_imp hc, ?_⟩
    simp only [isValidNumber, List.isEmpty_eq_false.mpr hne, Bool.false_eq_true, if_false,
      extractDouble] at h
    generalize tok.dropWhile isSpace = body at h
    cases body with
    | nil => simp at h
    | cons c rest =>
      simp only [Bool.and_eq_true, List.isEmpty_iff, Bool.not_eq_true', Bool.or_eq_false_iff,
        Bool.not_eq_false', FloatField.overflows, decide_eq_false_iff_not, not_le] at h
      exact ⟨isRealNumeral_of_scan _ h.1 h.2.1, h.2.2⟩
  · rintro ⟨hne, ws, body, htok, hws, hbody, hfit⟩
    obtain ⟨c, r, hcr, hc⟩ := isRealNumeral_head body hbody
    obtain ⟨hrest, hconv⟩ := scan_of_isRealNumeral body hbody
    have hdrop : tok.dropWhile isSpace = c :: r := by
      rw [htok, List.dropWhile_append_of_pos hws, hcr, List.dropWhile_cons]
      simp [hc]
    rw [hcr] at hrest hconv
    have hover : (scanFloat (c :: r)).overflows = false := by
      simp only [FloatField.overflows, decide_eq_false_iff_not, not_le]
      rw [← hcr]
      exact hfit
    simp [isValidNumber, List.isEmpty_eq_false.mpr hne, extractDouble, hdrop, hrest, hconv,
      hover]

/-- Evaluation of `isValidNumber` from the scan of the token. -/
theorem isValidNumber_eval (s : List Char) (c : Char) (rest : List Char) (f : FloatField)
    (hdrop : s.dropWhile isSpace = c :: rest) (hscan : scanFloat (c :: rest) = f)
    (hrest : f.rest = []) (hconv : f.converts = true) (hfit : f.overflows = false) :
    isValidNumber s = true := by
  have hne : s ≠ [] := by
    intro h0; subst h0; simp at hdrop
  simp [isValidNumber, List.isEmpty_eq_false.mpr hne, extractDouble, hdrop, hscan, hrest,
    hconv, hfit]

/-- A numeral that overflows is refused, whatever its shape. -/
theorem isValidNumber_overflow (s : List Char) (c : Char) (rest : List Char) (f : FloatField)
    (hdrop : s.dropWhile isSpace = c :: rest) (hscan : scanFloat (c :: rest) = f)
    (hover : f.overflows = true) : isValidNumber s = false := by
  have hne : s ≠ [] := by
    intro h0; subst h0; simp at hdrop
  simp [isValidNumber, List.isEmpty_eq_false.mpr hne, extractDouble, hdrop, hscan, hover]

variable {α : Type} [LinearOrderedField α]

/-- The value of a field without a minus sign on mantissa and exponent. -/
theorem value_unsigned (f : FloatField) (i d n k : Nat) (hs : f.sign ≠ some '-')
    (he : f.expSign ≠ some '-') (hi : digitsValue f.intDigits = i)
    (hd : digitsValue f.fracDigits = d) (hn : f.fracDigits.length = n)
    (hk : digitsValue f.expDigits = k) :
    (f.value : α) = ((i : α) + (d : α) / 10 ^ n) * 10 ^ k := by
  simp only [FloatField.value, if_neg hs, if_neg he, hi, hd, hn, hk]

/-- The value of a field with a negative exponent. -/
theorem value_negative_exponent (f : FloatField) (i d n k : Nat) (hs : f.sign ≠ some '-')
    (he : f.expSign = some '-') (hi : digitsValue f.intDigits = i)
    (hd : digitsValue f.fracDigits = d) (hn : f.fracDigits.length = n)
    (hk : digitsValue f.expDigits = k) :
    (f.value : α) = ((i : α) + (d : α) / 10 ^ n) / 10 ^ k := by
  simp only [FloatField.value, if_neg hs, if_pos he, hi, hd, hn, hk]

/-- The value of a field with a minus sign on the mantissa. -/
theorem value_negative (f : FloatField) (i d n k : Nat) (hs : f.sign = some '-')
    (he : f.expSign ≠ some '-') (hi : digitsValue f.intDigits = i)
    (hd : digitsValue f.fracDigits = d) (hn : f.fracDigits.length = n)
    (hk : digitsValue f.expDigits = k) :
    (f.value : α) = -(((i : α) + (d : α) / 10 ^ n) * 10 ^ k) := by
  simp only [FloatField.value, if_pos hs, if_neg he, hi, hd, hn, hk]

theorem overflows_of_value (f : FloatField) (v : ℚ) (hv : (f.value : ℚ) = v)
    (h : overflowThreshold ≤ v ∨ v ≤ -overflowThreshold) : f.overflows = true := by
  simp only [FloatField.overflows, decide_eq_true_eq, hv]
  exact le_abs.mpr (h.imp id le_neg_of_le_neg)

theorem not_overflows_of_value (f : FloatField) (v : ℚ) (hv : (f.value : ℚ) = v)
    (h : -overflowThreshold < v ∧ v < overflowThreshold) : f.overflows = false := by
  simp only [FloatField.overflows, decide_eq_false_iff_not, not_le, hv]
  exact abs_lt.mpr h

theorem underflows_of_value (f : FloatField) (v : ℚ) (hv : (f.value : ℚ) = v)
    (h0 : v ≠ 0) (h : -smallestNormal < v ∧ v < smallestNormal) : f.underflows = true := by
  simp only [FloatField.underflows, decide_eq_true_eq, hv]
  exact ⟨h0, abs_lt.mpr h⟩

theorem not_underflows_of_value (f : FloatField) (v : ℚ) (hv : (f.value : ℚ) = v)
    (h : v = 0 ∨ smallestNormal ≤ |v|) : f.underflows = false := by
  simp only [FloatField.underflows, decide_eq_false_iff_not, hv]
  rintro ⟨h0, hlt⟩
  rcases h with h | h
  · exact h0 h
  · exact absurd hlt (not_lt.mpr h)

theorem digitField_value (ds : List Char) :
    ((digitField ds).value : α) = (digitsValue ds : α) := by
  simp [digitField, FloatField.value, digitsValue]

/-- A run of digits worth less than `10 ^ 100` is inside the range of `double`. -/
theorem digitField_in_range (ds : List Char) (h : digitsValue ds < 10 ^ 100) :
    (digitField ds).overflows = false ∧ (digitField ds).underflows = false := by
  have hq : (digitsValue ds : ℚ) < 10 ^ 100 := by exact_mod_cast h
  have h0 : (0 : ℚ) ≤ (digitsValue ds : ℚ) := Nat.cast_nonneg _
  constructor
  · refine not_overflows_of_value _ _ (digitField_value ds) ?_
    have : (10 : ℚ) ^ 100 < overflowThreshold := by norm_num [overflowThreshold]
    constructor <;> linarith
  · refine not_underflows_of_value _ _ (digitField_value ds) ?_
    rcases Nat.eq_zero_or_pos (digitsValue ds) with hz | hp
    · left; simp [hz]
    · right
      rw [abs_of_nonneg h0]
      have h1 : (1 : ℚ) ≤ (digitsValue ds : ℚ) := by exact_mod_cast hp
      have h2 : smallestNormal < 1 := by norm_num [smallestNormal]
      linarith

/-- A token that is one short run of digits, between trim characters, is valid. -/
theorem isValidNumber_digits (s : List Char) (c : Char) (ds : List Char)
    (hdrop : s.dropWhile isSpace = c :: ds) (hscan : scanFloat (c :: ds) = digitField (c :: ds))
    (h : digitsValue (c :: ds) < 10 ^ 100) : isValidNumber s = true :=
  isValidNumber_eval s c ds _ hdrop hscan rfl rfl (digitField_in_range _ h).1

/-- Evaluation of `std::stod` from the scan of the token. -/
theorem stod_eval (s : List Char) (f : FloatField) (v : α)
    (hscan : scanFloat (s.dropWhile isSpace) = f)
    (hm : (!f.intDigits.isEmpty || !f.fracDigits.isEmpty) = true)
    (hover : f.overflows = false) (hunder : f.underflows = false) (hv : f.value = v) :
    (stod s : Except Fault α) = Except.ok v := by
  simp [stod, hscan, hm, hover, hunder, hv]

/-- The conversion of a numeral out of the range of `double` throws. -/
theorem stod_out_of_range (s : List Char) (f : FloatField)
    (hscan : scanFloat (s.dropWhile isSpace) = f)
    (h : f.overflows = true ∨ f.underflows = true) :
    (stod s : Except Fault α) = Except.error Fault.uncaughtException := by
  unfold stod
  simp only [hscan]
  split
  · rw [if_pos (by rcases h with h | h <;> simp [h])]
  · rfl

/-- The only fault of `std::stod` is an exception. -/
theorem stod_fault (s : List Char) (e : Fault)
    (h : (stod s : Except Fault α) = Except.error e) : e = Fault.uncaughtException := by
  unfold stod at h
  simp only [] at h
  split at h
  · split at h
    · cases h; rfl
    · cases h
  · cases h; rfl

theorem stod_digits (s : List Char) (ds : List Char) (v : α)
    (hscan : scanFloat (s.dropWhile isSpace) = digitField ds) (hne : ds ≠ [])
    (h : digitsValue ds < 10 ^ 100) (hv : (digitsValue ds : α) = v) :
    (stod s : Except Fault α) = Except.ok v :=
  stod_eval s _ v hscan (by cases ds with
    | nil => exact absurd rfl hne
    | cons _ _ => rfl) (digitField_in_range ds h).1 (digitField_in_range ds h).2
    ((digitField_value ds).trans hv)

/-- Lines that are all valid and convert to `vals` are all read. -/
theorem readLines_of_values (lines : List (List Char)) :
    ∀ (vals fileData : List α), (∀ l ∈ lines, isValidNumber (trim l) = true) →
      lines.map (fun l => (stod (trim l) : Except Fault α)) = vals.map Except.ok →
      readLines lines fileData = Except.ok (true, fileData ++ vals) := by
  induction lines with
  | nil =>
    intro vals fileData _ hvals
    cases vals with
    | nil => simp [readLines]
    | cons _ _ => simp at hvals
  | cons l rest ih =>
    intro vals fileData hall hvals
    have hl := hall l (List.mem_cons_self _ _)
    cases vals with
    | nil => simp at hvals
    | cons v vals1 =>
      simp only [List.map_cons, List.cons.injEq] at hvals
      have hrun := ih vals1 (fileData ++ [v])
        (fun l1 h1 => hall l1 (List.mem_cons_of_mem _ h1)) hvals.2
      simp only [readLines, hl, if_true, hvals.1, hrun, List.append_assoc,
        List.singleton_append]

/-- The three ways the reading loop over the lines of a file can end: an
exception out of `std::stod`, a line that fails validation, or every line read. -/
theorem readLines_outcome (lines : List (List Char)) :
    ∀ fileData : List α,
      readLines lines fileData = Except.error Fault.uncaughtException ∨
      ((∃ l ∈ lines, isValidNumber (trim l) = false) ∧
        ∃ fileData1 : List α, readLines lines fileData = Except.ok (false, fileData1)) ∨
      ((∀ l ∈ lines, isValidNumber (trim l) = true) ∧
        ∃ vals : List α,
          lines.map (fun l => (stod (trim l) : Except Fault α)) = vals.map Except.ok ∧
          readLines lines fileData = Except.ok (true, fileData ++ vals)) := by
  induction lines with
  | nil =>
    intro fileData
    exact Or.inr (Or.inr ⟨by simp, [], rfl, by simp [readLines]⟩)
  | cons l rest ih =>
    intro fileData
    by_cases hl : isValidNumber (trim l) = true
    · cases hst : (stod (trim l) : Except Fault α) with
      | error e =>
        left
        have he := stod_fault _ e hst
        subst he
        simp only [readLines, hl, if_true, hst]
      | ok v =>
        rcases ih (fileData ++ [v]) with h | ⟨⟨l1, hl1, hbad⟩, fd, hfd⟩ | ⟨hall, vals, hvals, hrun⟩
        · left
          simp only [readLines, hl, if_true, hst, h]
        · right; left
          exact ⟨⟨l1, List.mem_cons_of_mem _ hl1, hbad⟩, fd,
            by simp only [readLines, hl, if_true, hst, hfd]⟩
        · right; right
          refine ⟨?_, v :: vals, by simp only [List.map_cons, hst, hvals], ?_⟩
          · intro l1 h1
            rcases List.mem_cons.mp h1 with rfl | hmem
            · exact hl
            · exact hall l1 hmem
          · simp only [readLines, hl, if_true, hst, hrun, List.append_assoc,
              List.singleton_append]
    · right; left
      refine ⟨⟨l, List.mem_cons_self _ _, by simpa using hl⟩, fileData, ?_⟩
      simp only [readLines, hl, Bool.false_eq_true, if_false]

/-- An accepted source whose lines convert to `vals` appends exactly `vals`. -/
theorem readSource_values (data : List α) (lines : List (List Char)) (vals : List α)
    (hall : ∀ l ∈ lines, isValidNumber (trim l) = true)
    (hvals : lines.map (fun l => (stod (trim l) : Except Fault α)) = vals.map Except.ok)
    (hne : vals ≠ []) : readSource data lines = Except.ok (true, data ++ vals) := by
  have hrun := readLines_of_values lines vals [] hall hvals
  simp [readSource, hrun, hne]

/-- What one round of `readFiles` leaves when it runs to its end: either the
source is refused and the dataset is as before, or every line is valid, there
is at least one, and the values are appended in file order.  The round does not
run to its end when `std::stod` throws on a line that passed validation. -/
theorem readSource_outcome (data : List α) (lines : List (List Char)) :
    readSource data lines = Except.error Fault.uncaughtException ∨
    ((lines = [] ∨ ∃ l ∈ lines, isValidNumber (trim l) = false) ∧
      readSource data lines = Except.ok (false, data)) ∨
    (lines ≠ [] ∧ (∀ l ∈ lines, isValidNumber (trim l) = true) ∧
      ∃ vals : List α,
        lines.map (fun l => (stod (trim l) : Except Fault α)) = vals.map Except.ok ∧
        readSource data lines = Except.ok (true, data ++ vals)) := by
  rcases readLines_outcome (α := α) lines [] with h | ⟨hbad, fd, hfd⟩ | ⟨hall, vals, hvals, hrun⟩
  · left
    simp only [readSource, h]
  · right; left
    exact ⟨Or.inr hbad, by simp [readSource, hfd]⟩
  · by_cases hv : vals = []
    · right; left
      subst hv
      have hl : lines = [] := by
        have := congrArg List.length hvals
        simpa using this
      exact ⟨Or.inl hl, by simp [readSource, hrun]⟩
    · right; right
      have hl : lines ≠ [] := by
        intro h0; subst h0
        cases vals with
        | nil => exact hv rfl
        | cons _ _ => simp at hvals
      exact ⟨hl, hall, vals, hvals, by simp [readSource, hrun, hv]⟩

/-- A source with a malformed line is refused when every line before the first
malformed one converts. -/
theorem readSource_refused (data : List α) (pre : List (List Char)) (bad : List Char)
    (post : List (List Char)) (vals : List α)
    (hpre : ∀ l ∈ pre, isValidNumber (trim l) = true)
    (hvals : pre.map (fun l => (stod (trim l) : Except Fault α)) = vals.map Except.ok)
    (hbad : isValidNumber (trim bad) = false) :
    readSource data (pre ++ bad :: post) = Except.ok (false, data) := by
  have key : ∀ (pre : List (List Char)) (vals fileData : List α),
      (∀ l ∈ pre, isValidNumber (trim l) = true) →
      pre.map (fun l => (stod (trim l) : Except Fault α)) = vals.map Except.ok →
      readLines (pre ++ bad :: post) fileData = Except.ok (false, fileData ++ vals) := by
    intro pre
    induction pre with
    | nil =>
      intro vals fileData _ hv
      cases vals with
      | nil => simp [readLines, hbad]
      | cons _ _ => simp at hv
    | cons l rest ih =>
      intro vals fileData hall hv
      cases vals with
      | nil => simp at hv
      | cons v vals1 =>
        simp only [List.map_cons, List.cons.injEq] at hv
        have hrun := ih vals1 (fileData ++ [v])
          (fun l1 h1 => hall l1 (List.mem_cons_of_mem _ h1)) hv.2
        rw [List.append_assoc, List.singleton_append] at hrun
        rw [List.cons_append]
        simp only [readLines, hall l (List.mem_cons_self _ _), if_true, hv.1, hrun]
  simp [readSource, key pre vals [] hpre hvals]

/-- The field scanned from `1e400`. -/
theorem scanFloat_1e400 :
    scanFloat "1e400".toList =
      { sign := none, intDigits := ['1'], point := false, fracDigits := [], expMark := true,
        expSign := none, expDigits := ['4', '0', '0'], rest := [] } := by
  decide

/-- The field scanned from `1e-310`. -/
theorem scanFloat_1e_310 :
    scanFloat "1e-310".toList =
      { sign := none, intDigits := ['1'], point := false, fracDigits := [], expMark := true,
        expSign := some '-', expDigits := ['3', '1', '0'], rest := [] } := by
  decide

/-- The field scanned from `1e10`. -/
theorem scanFloat_1e10 :
    scanFloat "1e10".toList =
      { sign := none, intDigits := ['1'], point := false, fracDigits := [], expMark := true,
        expSign := none, expDigits := ['1', '0'], rest := [] } := by
  decide

/-- The field scanned from `-3.5`. -/
theorem scanFloat_neg_3_5 :
    scanFloat "-3.5".toList =
      { sign := some '-', intDigits := ['3'], point := true, fracDigits := ['5'],
        expMark := false, expSign := none, expDigits := [], rest := [] } := by
  decide

theorem isValidNumber_1e10 : isValidNumber "1e10".toList = true :=
  isValidNumber_eval _ '1' ['e', '1', '0'] _ (by decide) scanFloat_1e10 rfl rfl
    (not_overflows_of_value _ _
      (value_unsigned _ 1 0 0 10 (by decide) (by decide) (by decide) (by decide) (by decide)
        (by decide))
      (by norm_num [overflowThreshold]))

theorem isValidNumber_neg_3_5 : isValidNumber "-3.5".toList = true :=
  isValidNumber_eval _ '-' ['3', '.', '5'] _ (by decide) scanFloat_neg_3_5 rfl rfl
    (not_overflows_of_value _ _
      (value_negative _ 3 5 1 0 (by decide) (by decide) (by decide) (by decide) (by decide)
        (by decide))
      (by norm_num [overflowThreshold]))

theorem isValidNumber_42 : isValidNumber (trim " 42 ".toList) = true :=
  isValidNumber_digits _ '4' ['2'] (by decide) (by decide) (by decide)

theorem isValidNumber_space_42 : isValidNumber " 42".toList = true :=
  isValidNumber_digits _ '4' ['2'] (by decide) (by decide) (by decide)

theorem isValidNumber_1e400 : isValidNumber "1e400".toList = false :=
  isValidNumber_overflow _ '1' ['e', '4', '0', '0'] _ (by decide) scanFloat_1e400
    (overflows_of_value _ _
      (value_unsigned _ 1 0 0 400 (by decide) (by decide) (by decide) (by decide) (by decide)
        (by decide))
      (by norm_num [overflowThreshold]))

theorem isRealNumeral_1e400 : IsRealNumeral "1e400".toList :=
  ⟨[], ['1'], [], ['e', '4', '0', '0'], by decide, Or.inl rfl,
    by unfold AllDigits; decide, Or.inl rfl,
    Or.inl (by decide), Or.inr ⟨'e', [], ['4', '0', '0'], by decide, Or.inl rfl, Or.inl rfl,
      by unfold AllDigits; decide, by decide⟩⟩

theorem not_isRealNumeral_space_42 : ¬ IsRealNumeral " 42".toList := by
  intro h
  obtain ⟨c, r, hcr, hc⟩ := isRealNumeral_head _ h
  have : c = ' ' := by
    have := congrArg List.head? hcr
    simpa using this.symm
  subst this
  exact absurd hc (by decide)

/-- C9, where the claim as written fails: `isValidNumber` accepts the token
` 42`, which as a whole is not a numeral, because the extraction skips leading
white space; and it refuses the token `1e400`, which is one real number with no
character left over, because the value overflows a `double`. -/
theorem isValidNumber_not_whole_numeral :
    isValidNumber " 42".toList = true ∧ ¬ IsRealNumeral " 42".toList ∧
    isValidNumber "1e400".toList = false ∧ IsRealNumeral "1e400".toList :=
  ⟨isValidNumber_space_42, not_isRealNumeral_space_42, isValidNumber_1e400,
    isRealNumeral_1e400⟩

/-- C9, amended: `isValidNumber` returns true exactly when the token is
non-empty and, after leading white space, the rest of it is one decimal numeral
up to the last character whose magnitude is below the overflow threshold of
`double`; it accepts `1e10`, `-3.5` and `42`, the trimmed form of ` 42 `, and
rejects the empty token, `3.14abc` and `1 2`. -/
theorem isValidNumber_iff_numeral :
    (∀ tok : List Char, isValidNumber tok = true ↔
      tok ≠ [] ∧ ∃ ws body : List Char, tok = ws ++ body ∧ (∀ c ∈ ws, isSpace c = true) ∧
        IsRealNumeral body ∧ |numeralValue body| < overflowThreshold) ∧
    isValidNumber "1e10".toList = true ∧
    isValidNumber "-3.5".toList = true ∧
    isValidNumber (trim " 42 ".toList) = true ∧
    trim " 42 ".toList = "42".toList ∧
    isValidNumber "".toList = false ∧
    isValidNumber "3.14abc".toList = false ∧
    isValidNumber "1 2".toList = false :=
  ⟨isValidNumber_iff_numeral_in_range, isValidNumber_1e10, isValidNumber_neg_3_5,
    isValidNumber_42, by decide, by decide, by decide, by decide⟩

theorem isValidNumber_1e_310 : isValidNumber (trim "1e-310".toList) = true :=
  isValidNumber_eval _ '1' ['e', '-', '3', '1', '0'] _ (by decide) scanFloat_1e_310 rfl rfl
    (not_overflows_of_value _ _
      (value_negative_exponent _ 1 0 0 310 (by decide) (by decide) (by decide) (by decide)
        (by decide) (by decide))
      (by norm_num [overflowThreshold]))

theorem stod_1e_310 :
    (stod (trim "1e-310".toList) : Except Fault ℚ) = Except.error Fault.uncaughtException :=
  stod_out_of_range _ _ scanFloat_1e_310
    (Or.inr (underflows_of_value _ _
      (value_negative_exponent _ 1 0 0 310 (by decide) (by decide) (by decide) (by decide)
        (by decide) (by decide))
      (by norm_num) (by norm_num [smallestNormal])))

/-- C8, the failing input: a source whose first line is `1e-310` and whose
second line is `abc`.  The first line passes `isValidNumber`, then `std::stod`
throws `std::out_of_range` on it, which nothing catches: the round of
`readFiles` ends in the exception instead of refusing the source and leaving
the dataset `[7]` as it was.  A source holding the line `1e-310` alone ends the
same way. -/
theorem readSource_underflow_aborts :
    isValidNumber (trim "1e-310".toList) = true ∧
    (stod (trim "1e-310".toList) : Except Fault ℚ) = Except.error Fault.uncaughtException ∧
    isValidNumber (trim "abc".toList) = false ∧
    readSource ([7] : List ℚ) ["1e-310".toList, "abc".toList]
      = Except.error Fault.uncaughtException ∧
    readSource ([7] : List ℚ) ["1e-310".toList] = Except.error Fault.uncaughtException := by
  refine ⟨isValidNumber_1e_310, stod_1e_310, by decide, ?_, ?_⟩
  · simp only [readSource, readLines, isValidNumber_1e_310, if_true, stod_1e_310]
  · simp only [readSource, readLines, isValidNumber_1e_310, if_true, stod_1e_310]

/-- C7: three accepted sources holding the values `[3,1,2]`, `[5]` and `[4,4]`,
read in that order into an empty dataset, give the dataset `[3,1,2,5,4,4]`;
sorting it gives `[1,2,3,4,4,5]`, and on it the mean is `19/6`, the median
`7/2` and the mode `4`. -/
theorem scenario_three_sources (src1 src2 src3 : List (List Char))
    (h1 : ∀ l ∈ src1, isValidNumber (trim l) = true)
    (v1 : src1.map (fun l => (stod (trim l) : Except Fault ℚ))
      = [Except.ok 3, Except.ok 1, Except.ok 2])
    (h2 : ∀ l ∈ src2, isValidNumber (trim l) = true)
    (v2 : src2.map (fun l => (stod (trim l) : Except Fault ℚ)) = [Except.ok 5])
    (h3 : ∀ l ∈ src3, isValidNumber (trim l) = true)
    (v3 : src3.map (fun l => (stod (trim l) : Except Fault ℚ)) = [Except.ok 4, Except.ok 4]) :
    readSource ([] : List ℚ) src1 = Except.ok (true, [3, 1, 2]) ∧
    readSource ([3, 1, 2] : List ℚ) src2 = Except.ok (true, [3, 1, 2, 5]) ∧
    readSource ([3, 1, 2, 5] : List ℚ) src3 = Except.ok (true, [3, 1, 2, 5, 4, 4]) ∧
    mergeSort ([3, 1, 2, 5, 4, 4] : List ℚ) 0 5 = Except.ok [1, 2, 3, 4, 4, 5] ∧
    (calculateMean ([3, 1, 2, 5, 4, 4] : List ℚ)).1 = 19 / 6 ∧
    calculateMedian ([3, 1, 2, 5, 4, 4] : List ℚ) = Except.ok (7 / 2, [1, 2, 3, 4, 4, 5]) ∧
    (calculateMode ([3, 1, 2, 5, 4, 4] : List ℚ)).1 = 4 := by
  have hsort : mergeSort ([3, 1, 2, 5, 4, 4] : List ℚ) 0 5 = Except.ok [1, 2, 3, 4, 4, 5] := rfl
  refine ⟨?_, ?_, ?_, hsort, ?_, ?_, ?_⟩
  · exact readSource_values [] src1 [3, 1, 2] h1 v1 (by simp)
  · exact readSource_values [3, 1, 2] src2 [5] h2 v2 (by simp)
  · exact readSource_values [3, 1, 2, 5] src3 [4, 4] h3 v3 (by simp)
  · norm_num [calculateMean]
  · have hn : ((([3, 1, 2, 5, 4, 4] : List ℚ).length : Int) - 1) = 5 := rfl
    simp only [calculateMedian, List.isEmpty_cons, Bool.false_eq_true, if_false, hn, hsort]
    norm_num [readAt, Int.tmod, Int.tdiv]
    have e2 : Int.toNat 2 = 2 := rfl
    have e3 : Int.toNat 3 = 3 := rfl
    simp only [e2, e3, List.getElem_cons_succ, List.getElem_cons_zero]
    norm_num
  · norm_num [calculateMode, mapIncrement, modeScan]

theorem valid_line_3 : isValidNumber (trim "3".toList) = true :=
  isValidNumber_digits _ '3' [] (by decide) (by decide) (by decide)

theorem valid_line_1 : isValidNumber (trim "1".toList) = true :=
  isValidNumber_digits _ '1' [] (by decide) (by decide) (by decide)

theorem valid_line_2 : isValidNumber (trim " 2 ".toList) = true :=
  isValidNumber_digits _ '2' [] (by decide) (by decide) (by decide)

theorem valid_line_5 : isValidNumber (trim "5".toList) = true :=
  isValidNumber_digits _ '5' [] (by decide) (by decide) (by decide)

theorem valid_line_4 : isValidNumber (trim "4".toList) = true :=
  isValidNumber_digits _ '4' [] (by decide) (by decide) (by decide)

theorem stod_line_3 : (stod (trim "3".toList) : Except Fault ℚ) = Except.ok 3 :=
  stod_digits _ ['3'] 3 (by decide) (by decide) (by decide)
    (by rw [show digitsValue ['3'] = 3 from by decide]; norm_num)

theorem stod_line_1 : (stod (trim "1".toList) : Except Fault ℚ) = Except.ok 1 :=
  stod_digits _ ['1'] 1 (by decide) (by decide) (by decide)
    (by rw [show digitsValue ['1'] = 1 from by decide]; norm_num)

theorem stod_line_2 : (stod (trim " 2 ".toList) : Except Fault ℚ) = Except.ok 2 :=
  stod_digits _ ['2'] 2 (by decide) (by decide) (by decide)
    (by rw [show digitsValue ['2'] = 2 from by decide]; norm_num)

theorem stod_line_5 : (stod (trim "5".toList) : Except Fault ℚ) = Except.ok 5 :=
  stod_digits _ ['5'] 5 (by decide) (by decide) (by decide)
    (by rw [show digitsValue ['5'] = 5 from by decide]; norm_num)

theorem stod_line_4 : (stod (trim "4".toList) : Except Fault ℚ) = Except.ok 4 :=
  stod_digits _ ['4'] 4 (by decide) (by decide) (by decide)
    (by rw [show digitsValue ['4'] = 4 from by decide]; norm_num)

/-- Witness for C7: the three sources as text files with the lines `3`, `1`,
` 2 `, then `5`, then `4`, `4`. -/
theorem scenario_three_sources_witness :
    readSource ([] : List ℚ) ["3".toList, "1".toList, " 2 ".toList]
      = Except.ok (true, [3, 1, 2]) ∧
    readSource ([3, 1, 2] : List ℚ) ["5".toList] = Except.ok (true, [3, 1, 2, 5]) ∧
    readSource ([3, 1, 2, 5] : List ℚ) ["4".toList, "4".toList]
      = Except.ok (true, [3, 1, 2, 5, 4, 4]) ∧
    mergeSort ([3, 1, 2, 5, 4, 4] : List ℚ) 0 5 = Except.ok [1, 2, 3, 4, 4, 5] ∧
    (calculateMean ([3, 1, 2, 5, 4, 4] : List ℚ)).1 = 19 / 6 ∧
    calculateMedian ([3, 1, 2, 5, 4, 4] : List ℚ) = Except.ok (7 / 2, [1, 2, 3, 4, 4, 5]) ∧
    (calculateMode ([3, 1, 2, 5, 4, 4] : List ℚ)).1 = 4 :=
  scenario_three_sources ["3".toList, "1".toList, " 2 ".toList] ["5".toList]
    ["4".toList, "4".toList]
    (by simp only [List.forall_mem_cons, valid_line_3, valid_line_1, valid_line_2,
      List.not_mem_nil, false_implies, implies_true, and_self])
    (by simp only [List.map, stod_line_3, stod_line_1, stod_line_2])
    (by simp only [List.forall_mem_cons, valid_line_5, List.not_mem_nil, false_implies,
      implies_true, and_self])
    (by simp only [List.map, stod_line_5])
    (by simp only [List.forall_mem_cons, valid_line_4, List.not_mem_nil, false_implies,
      implies_true, and_self])
    (by simp only [List.map, stod_line_4])

end InputProofs

section FrameProofs

variable {α : Type} [LinearOrder α]

omit [LinearOrder α] in
theorem slice_decomp (arr : List α) (l r : Nat) (hlr : l ≤ r + 1) :
    arr = arr.take l ++ (arr.drop l).take (r + 1 - l) ++ arr.drop (r + 1) := by
  have e : arr.drop (r + 1) = (arr.drop l).drop (r + 1 - l) := by
    rw [List.drop_drop]; congr 1; omega
  rw [e, List.append_assoc, List.take_append_drop, List.take_append_drop]

omit [LinearOrder α] in
/-- Outside the positions `l..r` a spliced array reads like the original. -/
theorem getElem?_outside (arr s : List α) (l r i : Nat) (hlr : l ≤ r + 1)
    (hr : r < arr.length) (hs : s.length = r + 1 - l) (hi : i < l ∨ r < i) :
    (arr.take l ++ s ++ arr.drop (r + 1))[i]? = arr[i]? := by
  have hpre : (arr.take l).length = l := by simp; omega
  rcases hi with h | h
  · rw [List.append_assoc, List.getElem?_append_left (by omega), List.getElem?_take_of_lt h]
  · rw [List.getElem?_append_right (by simp; omega), List.getElem?_drop]
    congr 1
    simp
    omega

/-- C14: for `0 ≤ left ≤ right < arr.size()`, `mergeSort(arr, left, right)`
keeps the length and every element at an index below `left` or above `right`;
when `left >= right` the whole array is unchanged. -/
theorem mergeSort_frame (arr : List α) (left right : Int) :
    (0 ≤ left → left ≤ right → right < (arr.length : Int) →
      ∃ arr1 : List α, mergeSort arr left right = Except.ok arr1 ∧
        arr1.length = arr.length ∧
        ∀ i : Nat, ((i : Int) < left ∨ right < (i : Int)) → arr1[i]? = arr[i]?) ∧
    (right ≤ left → mergeSort arr left right = Except.ok arr) := by
  refine ⟨?_, mergeSort_of_ge arr left right⟩
  intro h0 h1 h2
  obtain ⟨s, hrun, -, hp, hlen⟩ := mergeSort_decomp arr left right h0 h1 h2
  refine ⟨_, hrun, ?_, ?_⟩
  · simp [hlen]; omega
  · intro i hi
    exact getElem?_outside arr s left.toNat right.toNat i (by omega) (by omega) hlen (by omega)

/-- Witness for C14: sorting positions `2..4` of a six-element array, and a call
with `left > right`. -/
theorem mergeSort_frame_witness :
    (∃ arr1 : List ℚ, mergeSort [9, 8, 7, 3, 5, 0] 2 4 = Except.ok arr1 ∧
        arr1.length = ([9, 8, 7, 3, 5, 0] : List ℚ).length ∧
        ∀ i : Nat, ((i : Int) < 2 ∨ 4 < (i : Int)) →
          arr1[i]? = ([9, 8, 7, 3, 5, 0] : List ℚ)[i]?) ∧
    mergeSort ([9, 8, 7, 3, 5, 0] : List ℚ) 3 1 = Except.ok [9, 8, 7, 3, 5, 0] :=
  ⟨(mergeSort_frame [9, 8, 7, 3, 5, 0] 2 4).1 (by decide) (by decide) (by decide),
    (mergeSort_frame [9, 8, 7, 3, 5, 0] 3 1).2 (by decide)⟩

/-- A range that is already in order is left as it is. -/
theorem mergeSort_of_sortedRange (arr : List α) (left right : Int) (h0 : 0 ≤ left)
    (h2 : right < (arr.length : Int)) (hs : SortedRange arr left right) :
    mergeSort arr left right = Except.ok arr := by
  by_cases h1 : left ≤ right
  · obtain ⟨s, hrun, hss, hp, hlen⟩ := mergeSort_decomp arr left right h0 h1 h2
    have hseg : ((arr.drop left.toNat).take (right.toNat + 1 - left.toNat)).Sorted (· ≤ ·) := by
      apply List.pairwise_iff_getElem.mpr
      intro a b ha hb hab
      simp only [List.length_take, List.length_drop] at ha hb
      rw [List.getElem_take, List.getElem_take, List.getElem_drop, List.getElem_drop]
      apply hs (left.toNat + a) (left.toNat + b) (by omega) (by omega) (by omega)
      · exact List.getElem?_eq_getElem _
      · exact List.getElem?_eq_getElem _
    have : s = (arr.drop left.toNat).take (right.toNat + 1 - left.toNat) :=
      List.eq_of_perm_of_sorted hp hss hseg
    rw [hrun, this, ← slice_decomp arr left.toNat right.toNat (by omega)]
  · exact mergeSort_of_ge arr left right (by omega)

/-- Sorting the whole of any array, the empty one included, returns its
non-decreasing rearrangement. -/
theorem mergeSort_whole_exists (data : List α) :
    ∃ T : List α, mergeSort data 0 ((data.length : Int) - 1) = Except.ok T ∧
      T.Sorted (· ≤ ·) ∧ T.Perm data := by
  by_cases hne : data = []
  · subst hne
    exact ⟨[], rfl, List.sorted_nil, List.Perm.refl _⟩
  · have hs : (data.insertionSort (· ≤ ·)).Sorted (· ≤ ·) := List.sorted_insertionSort _ data
    have hp : (data.insertionSort (· ≤ ·)).Perm data := List.perm_insertionSort _ data
    exact ⟨_, mergeSort_whole data _ hne hs hp, hs, hp⟩

theorem mergeSort_whole_of_sorted (T : List α) (hs : T.Sorted (· ≤ ·)) :
    mergeSort T 0 ((T.length : Int) - 1) = Except.ok T := by
  by_cases hne : T = []
  · subst hne; rfl
  · exact mergeSort_whole T T hne hs (List.Perm.refl _)

end FrameProofs

section StatisticsFrameProofs

variable {α : Type} [LinearOrderedField α]

/-- C11: `calculateMean` and `calculateMode` leave the dataset as it was: the
same values at the same positions. -/
theorem mean_mode_leave_data (data : List α) :
    (calculateMean data).2 = data ∧ (calculateMode data).2 = data :=
  ⟨calculateMean_snd data, calculateMode_snd data⟩

/-- What `calculateMedian` does on any dataset, the empty one included: it
succeeds and leaves the non-decreasing rearrangement in `data`. -/
theorem calculateMedian_total (data : List α) :
    ∃ (v : α) (T : List α), calculateMedian data = Except.ok (v, T) ∧
      T.Sorted (· ≤ ·) ∧ T.Perm data := by
  by_cases hne : data = []
  · subst hne
    exact ⟨0, [], rfl, List.sorted_nil, List.Perm.refl _⟩
  · have hs : (data.insertionSort (· ≤ ·)).Sorted (· ≤ ·) := List.sorted_insertionSort _ data
    have hp : (data.insertionSort (· ≤ ·)).Perm data := List.perm_insertionSort _ data
    obtain ⟨v, hrun, -, -⟩ := calculateMedian_spec data _ hne hs hp
    exact ⟨v, _, hrun, hs, hp⟩

/-- A dataset that is already in order is left as it is by `calculateMedian`. -/
theorem calculateMedian_of_sorted (T : List α) (hs : T.Sorted (· ≤ ·)) :
    ∃ v : α, calculateMedian T = Except.ok (v, T) := by
  by_cases hne : T = []
  · subst hne
    exact ⟨0, rfl⟩
  · obtain ⟨v, hrun, -, -⟩ := calculateMedian_spec T T hne hs (List.Perm.refl _)
    exact ⟨v, hrun⟩

/-- What `displayResults` does: it succeeds, prints the non-decreasing
rearrangement and leaves it in `data`. -/
theorem displayResults_total (data : List α) :
    ∃ (out : ConsoleReport α) (T : List α), displayResults data = Except.ok (out, T) ∧
      out.sortedValues = T ∧ T.Sorted (· ≤ ·) ∧ T.Perm data := by
  obtain ⟨T, hsort, hs, hp⟩ := mergeSort_whole_exists data
  obtain ⟨v, hmed⟩ := calculateMedian_of_sorted T hs
  have hmean : calculateMean T = ((calculateMean T).1, T) :=
    Prod.ext rfl (calculateMean_snd T)
  have hmode : calculateMode T = ((calculateMode T).1, T) :=
    Prod.ext rfl (calculateMode_snd T)
  refine ⟨{ sortedValues := T, mean := (calculateMean T).1, median := v,
            mode := (calculateMode T).1 }, T, ?_, rfl, hs, hp⟩
  unfold displayResults
  rw [hsort]
  simp only []
  rw [hmean]
  simp only []
  rw [hmed]
  simp only []
  rw [hmode]

/-- C12: after `calculateMedian`, after the sorting step of `displayResults`
and after `displayResults` as a whole, the dataset is in non-decreasing order
and is a permutation of the dataset before the call. -/
theorem median_display_sort_data (data : List α) :
    (∃ (v : α) (data1 : List α), calculateMedian data = Except.ok (v, data1) ∧
      data1.Sorted (· ≤ ·) ∧ data1.Perm data) ∧
    (∃ data1 : List α, mergeSort data 0 ((data.length : Int) - 1) = Except.ok data1 ∧
      data1.Sorted (· ≤ ·) ∧ data1.Perm data) ∧
    (∃ (out : ConsoleReport α) (data1 : List α), displayResults data = Except.ok (out, data1) ∧
      data1.Sorted (· ≤ ·) ∧ data1.Perm data) := by
  refine ⟨calculateMedian_total data, mergeSort_whole_exists data, ?_⟩
  obtain ⟨out, T, hrun, -, hs, hp⟩ := displayResults_total data
  exact ⟨out, T, hrun, hs, hp⟩

/-- C18: a range that is already non-decreasing is left unchanged by
`mergeSort`; so sorting the whole array a second time changes nothing, and
`calculateMedian` after `displayResults` leaves the dataset as it found it. -/
theorem mergeSort_idempotent (arr : List α) (left right : Int) :
    (0 ≤ left → right < (arr.length : Int) → SortedRange arr left right →
      mergeSort arr left right = Except.ok arr) ∧
    (∀ data1 : List α, mergeSort arr 0 ((arr.length : Int) - 1) = Except.ok data1 →
      mergeSort data1 0 ((data1.length : Int) - 1) = Except.ok data1) ∧
    (∀ (out : ConsoleReport α) (data1 : List α), displayResults arr = Except.ok (out, data1) →
      ∃ v : α, calculateMedian data1 = Except.ok (v, data1)) := by
  refine ⟨mergeSort_of_sortedRange arr left right, ?_, ?_⟩
  · intro data1 hrun
    obtain ⟨T, hsort, hs, -⟩ := mergeSort_whole_exists arr
    rw [hsort] at hrun
    cases hrun
    exact mergeSort_whole_of_sorted _ hs
  · intro out data1 hrun
    obtain ⟨out1, T, hd, -, hs, -⟩ := displayResults_total arr
    rw [hd] at hrun
    cases hrun
    exact calculateMedian_of_sorted _ hs

theorem sortedRange_of_sorted (arr : List α) (left right : Int)
    (hs : arr.Sorted (· ≤ ·)) : SortedRange arr left right :=
  fun i j _ hij _ x y hx hy => sorted_getElem?_le arr hs i j hij x y hx hy

/-- Witness for C18: the array `[1, 2, 2, 5]` is in order over `0..3`, and the
array `[3, 1, 2]` sorted once is `[1, 2, 3]`. -/
theorem mergeSort_idempotent_witness :
    mergeSort ([1, 2, 2, 5] : List ℚ) 0 3 = Except.ok [1, 2, 2, 5] ∧
    mergeSort ([1, 2, 3] : List ℚ) 0 ((([1, 2, 3] : List ℚ).length : Int) - 1)
      = Except.ok [1, 2, 3] :=
  ⟨(mergeSort_idempotent ([1, 2, 2, 5] : List ℚ) 0 3).1 (by decide) (by decide)
      (sortedRange_of_sorted _ 0 3 (by decide)),
    (mergeSort_idempotent ([3, 1, 2] : List ℚ) 0 2).2.1 [1, 2, 3] rfl⟩

/-- The candidate list of `calculateMode` is in strictly ascending order. -/
theorem modes_sorted (data : List α) :
    ((modeScan (data.foldl mapIncrement []) 0 []).2).Sorted (· < ·) := by
  obtain ⟨hsorted, -, -⟩ := foldl_mapIncrement data [] (by simp)
  rw [modeScan_eq]
  simp only [ite_self, List.nil_append]
  exact List.Pairwise.sublist ((List.filter_sublist _).map Prod.fst) hsorted

theorem modeSet_nonempty (data : List α) (hne : data ≠ []) : (modeSet data).Nonempty := by
  obtain ⟨x, hx, hxe⟩ := maxOccurrence_attained data hne
  exact ⟨x, by simp [modeSet, hx, hxe]⟩

theorem modes_ne_nil (data : List α) (hne : data ≠ []) :
    (modeScan (data.foldl mapIncrement []) 0 []).2 ≠ [] := by
  obtain ⟨-, hset⟩ := modes_spec data hne
  intro h0
  rw [h0] at hset
  have := modeSet_nonempty data hne
  rw [← hset] at this
  simp at this

theorem modes_subset (data : List α) (hne : data ≠ []) :
    ∀ x ∈ (modeScan (data.foldl mapIncrement []) 0 []).2, x ∈ data := by
  obtain ⟨-, hset⟩ := modes_spec data hne
  intro x hx
  have : x ∈ modeSet data := by rw [← hset]; exact List.mem_toFinset.mpr hx
  simp only [modeSet, Finset.mem_filter, List.mem_toFinset] at this
  exact this.1

theorem calculateMode_fst (data : List α) (hne : data ≠ []) :
    (calculateMode data).1
      = ((modeScan (data.foldl mapIncrement []) 0 []).2).sum
        / (((modeScan (data.foldl mapIncrement []) 0 []).2).length : α) := by
  simp only [calculateMode, isEmpty_eq_false_of_ne_nil data hne, Bool.false_eq_true, if_false,
    foldl_add_eq_sum]

/-- C16: on a non-empty dataset the candidate list `modes` that the scan of
`calculateMode` builds is non-empty and holds distinct values in ascending
order, so the divisor `modes.size()` of the final division is not zero. -/
theorem modes_nonempty_ascending (data : List α) (hne : data ≠ []) :
    (modeScan (data.foldl mapIncrement []) 0 []).2 ≠ [] ∧
    ((modeScan (data.foldl mapIncrement []) 0 []).2).Sorted (· < ·) ∧
    ((modeScan (data.foldl mapIncrement []) 0 []).2).Nodup ∧
    (((modeScan (data.foldl mapIncrement []) 0 []).2).length : α) ≠ 0 ∧
    (calculateMode data).1
      = ((modeScan (data.foldl mapIncrement []) 0 []).2).sum
        / (((modeScan (data.foldl mapIncrement []) 0 []).2).length : α) := by
  refine ⟨modes_ne_nil data hne, modes_sorted data, (modes_spec data hne).1, ?_,
    calculateMode_fst data hne⟩
  have h := modes_ne_nil data hne
  have hpos : 0 < ((modeScan (data.foldl mapIncrement []) 0 []).2).length :=
    List.length_pos.mpr h
  exact_mod_cast Nat.pos_iff_ne_zero.mp hpos

/-- Witness for C16 on a dataset with a three-way tie. -/
theorem modes_nonempty_ascending_witness :
    (modeScan (([7, 1, 3] : List ℚ).foldl mapIncrement []) 0 []).2 ≠ [] ∧
    ((modeScan (([7, 1, 3] : List ℚ).foldl mapIncrement []) 0 []).2).Sorted (· < ·) ∧
    ((modeScan (([7, 1, 3] : List ℚ).foldl mapIncrement []) 0 []).2).Nodup ∧
    (((modeScan (([7, 1, 3] : List ℚ).foldl mapIncrement []) 0 []).2).length : ℚ) ≠ 0 ∧
    (calculateMode ([7, 1, 3] : List ℚ)).1
      = ((modeScan (([7, 1, 3] : List ℚ).foldl mapIncrement []) 0 []).2).sum
        / (((modeScan (([7, 1, 3] : List ℚ).foldl mapIncrement []) 0 []).2).length : ℚ) :=
  modes_nonempty_ascending [7, 1, 3] (by decide)

theorem calculateMean_fst (data : List α) :
    (calculateMean data).1 = data.sum / (data.length : α) := by
  by_cases hne : data = []
  · subst hne; simp [calculateMean]
  · simp [calculateMean, isEmpty_eq_false_of_ne_nil data hne, foldl_add_eq_sum]

theorem calculateMean_perm (d1 d2 : List α) (hp : d1.Perm d2) :
    (calculateMean d1).1 = (calculateMean d2).1 := by
  rw [calculateMean_fst, calculateMean_fst, hp.sum_eq, hp.length_eq]

theorem calculateMode_perm (d1 d2 : List α) (hp : d1.Perm d2) :
    (calculateMode d1).1 = (calculateMode d2).1 := by
  by_cases hne : d1 = []
  · subst hne
    have : d2 = [] := hp.symm.eq_nil
    subst this
    rfl
  · have hne2 : d2 ≠ [] := fun h => hne (by subst h; exact hp.eq_nil)
    rw [calculateMode_spec d1 hne, calculateMode_spec d2 hne2, modeSpec_perm d1 d2 hp]

theorem calculateMedian_perm (d1 d2 : List α) (hp : d1.Perm d2) :
    ∃ (v : α) (T : List α), calculateMedian d1 = Except.ok (v, T) ∧
      calculateMedian d2 = Except.ok (v, T) := by
  by_cases hne : d1 = []
  · subst hne
    have : d2 = [] := hp.symm.eq_nil
    subst this
    exact ⟨0, [], rfl, rfl⟩
  · have hne2 : d2 ≠ [] := fun h => hne (by subst h; exact hp.eq_nil)
    have hs : (d1.insertionSort (· ≤ ·)).Sorted (· ≤ ·) := List.sorted_insertionSort _ d1
    have hp1 : (d1.insertionSort (· ≤ ·)).Perm d1 := List.perm_insertionSort _ d1
    generalize d1.insertionSort (· ≤ ·) = T at hs hp1
    obtain ⟨v1, hrun1, hodd1, heven1⟩ := calculateMedian_spec d1 T hne hs hp1
    obtain ⟨v2, hrun2, hodd2, heven2⟩ := calculateMedian_spec d2 T hne2 hs (hp1.trans hp)
    have hv : v1 = v2 := by
      rw [← hp.length_eq] at hodd2 heven2
      rcases Nat.mod_two_eq_zero_or_one d1.length with h | h
      · obtain ⟨a1, b1, ha1, hb1, e1⟩ := heven1 h
        obtain ⟨a2, b2, ha2, hb2, e2⟩ := heven2 h
        rw [ha1] at ha2
        rw [hb1] at hb2
        cases ha2
        cases hb2
        rw [e1, e2]
      · have h1 := hodd1 h
        have h2 := hodd2 h
        rw [h1] at h2
        cases h2
        rfl
    subst hv
    exact ⟨v1, T, hrun1, hrun2⟩

/-- C17: on two datasets that are permutations of each other `calculateMedian`,
`calculateMode` and `calculateMean` return the same values; in particular they
return on the sorted dataset what they return on the dataset before the sort. -/
theorem statistics_order_independent (d1 d2 : List α) (hp : d1.Perm d2) :
    (∃ (v : α) (t1 t2 : List α), calculateMedian d1 = Except.ok (v, t1) ∧
      calculateMedian d2 = Except.ok (v, t2)) ∧
    (calculateMode d1).1 = (calculateMode d2).1 ∧
    (calculateMean d1).1 = (calculateMean d2).1 ∧
    (∀ sorted : List α, mergeSort d1 0 ((d1.length : Int) - 1) = Except.ok sorted →
      (∃ (v : α) (t1 t2 : List α), calculateMedian d1 = Except.ok (v, t1) ∧
        calculateMedian sorted = Except.ok (v, t2)) ∧
      (calculateMode d1).1 = (calculateMode sorted).1 ∧
      (calculateMean d1).1 = (calculateMean sorted).1) := by
  refine ⟨?_, calculateMode_perm d1 d2 hp, calculateMean_perm d1 d2 hp, ?_⟩
  · obtain ⟨v, T, h1, h2⟩ := calculateMedian_perm d1 d2 hp
    exact ⟨v, T, T, h1, h2⟩
  · intro sorted hrun
    obtain ⟨T, hsort, -, hpT⟩ := mergeSort_whole_exists d1
    rw [hsort] at hrun
    cases hrun
    obtain ⟨v, T1, h1, h2⟩ := calculateMedian_perm d1 _ hpT.symm
    exact ⟨⟨v, T1, T1, h1, h2⟩, calculateMode_perm d1 _ hpT.symm,
      calculateMean_perm d1 _ hpT.symm⟩

/-- Witness for C17 on `[3, 1, 2, 5, 4, 4]` and a rearrangement of it. -/
theorem statistics_order_independent_witness :
    (∃ (v : ℚ) (t1 t2 : List ℚ), calculateMedian [3, 1, 2, 5, 4, 4] = Except.ok (v, t1) ∧
      calculateMedian [4, 5, 4, 3, 2, 1] = Except.ok (v, t2)) ∧
    (calculateMode ([3, 1, 2, 5, 4, 4] : List ℚ)).1
      = (calculateMode ([4, 5, 4, 3, 2, 1] : List ℚ)).1 ∧
    (calculateMean ([3, 1, 2, 5, 4, 4] : List ℚ)).1
      = (calculateMean ([4, 5, 4, 3, 2, 1] : List ℚ)).1 ∧
    (∀ sorted : List ℚ,
      mergeSort [3, 1, 2, 5, 4, 4] 0 ((([3, 1, 2, 5, 4, 4] : List ℚ).length : Int) - 1)
        = Except.ok sorted →
      (∃ (v : ℚ) (t1 t2 : List ℚ), calculateMedian [3, 1, 2, 5, 4, 4] = Except.ok (v, t1) ∧
        calculateMedian sorted = Except.ok (v, t2)) ∧
      (calculateMode ([3, 1, 2, 5, 4, 4] : List ℚ)).1 = (calculateMode sorted).1 ∧
      (calculateMean ([3, 1, 2, 5, 4, 4] : List ℚ)).1 = (calculateMean sorted).1) :=
  statistics_order_independent [3, 1, 2, 5, 4, 4] [4, 5, 4, 3, 2, 1] (by decide)

theorem smallest_le (data : List α) : ∀ x ∈ data, smallest data ≤ x := by
  induction data with
  | nil => intro x hx; simp at hx
  | cons a rest ih =>
    intro x hx
    cases rest with
    | nil =>
      simp only [List.mem_singleton] at hx
      subst hx
      exact le_refl _
    | cons b rest1 =>
      rw [smallest]
      rcases List.mem_cons.mp hx with rfl | hmem
      · exact min_le_left _ _
      · exact le_trans (min_le_right _ _) (ih x hmem)

theorem le_largest (data : List α) : ∀ x ∈ data, x ≤ largest data := by
  induction data with
  | nil => intro x hx; simp at hx
  | cons a rest ih =>
    intro x hx
    cases rest with
    | nil =>
      simp only [List.mem_singleton] at hx
      subst hx
      exact le_refl _
    | cons b rest1 =>
      rw [largest]
      rcases List.mem_cons.mp hx with rfl | hmem
      · exact le_max_left _ _
      · exact le_trans (ih x hmem) (le_max_right _ _)

theorem smallest_mem (data : List α) (hne : data ≠ []) : smallest data ∈ data := by
  induction data with
  | nil => exact absurd rfl hne
  | cons a rest ih =>
    cases rest with
    | nil => simp [smallest]
    | cons b rest1 =>
      rw [smallest]
      rcases min_choice a (smallest (b :: rest1)) with h | h
      · rw [h]; exact List.mem_cons_self _ _
      · rw [h]; exact List.mem_cons_of_mem _ (ih (List.cons_ne_nil _ _))

theorem largest_mem (data : List α) (hne : data ≠ []) : largest data ∈ data := by
  induction data with
  | nil => exact absurd rfl hne
  | cons a rest ih =>
    cases rest with
    | nil => simp [largest]
    | cons b rest1 =>
      rw [largest]
      rcases max_choice a (largest (b :: rest1)) with h | h
      · rw [h]; exact List.mem_cons_self _ _
      · rw [h]; exact List.mem_cons_of_mem _ (ih (List.cons_ne_nil _ _))

/-- The mean of a non-empty list lies between any two bounds of its elements. -/
theorem average_within (l : List α) (lo hi : α) (hne : l ≠ [])
    (h : ∀ x ∈ l, lo ≤ x ∧ x ≤ hi) :
    lo ≤ l.sum / (l.length : α) ∧ l.sum / (l.length : α) ≤ hi := by
  have hpos : (0 : α) < (l.length : α) := by
    exact_mod_cast List.length_pos.mpr hne
  have h1 := List.card_nsmul_le_sum l lo (fun x hx => (h x hx).1)
  have h2 := List.sum_le_card_nsmul l hi (fun x hx => (h x hx).2)
  rw [nsmul_eq_mul] at h1 h2
  constructor
  · rw [le_div_iff₀ hpos]
    linarith
  · rw [div_le_iff₀ hpos]
    linarith

/-- C19: on a non-empty dataset the values returned by `calculateMean`,
`calculateMedian` and `calculateMode` lie between the smallest and the largest
value of the dataset, bounds included. -/
theorem statistics_within_range (data : List α) (hne : data ≠ []) :
    (smallest data ∈ data ∧ largest data ∈ data ∧
      ∀ x ∈ data, smallest data ≤ x ∧ x ≤ largest data) ∧
    (smallest data ≤ (calculateMean data).1 ∧ (calculateMean data).1 ≤ largest data) ∧
    (∃ (v : α) (data1 : List α), calculateMedian data = Except.ok (v, data1) ∧
      smallest data ≤ v ∧ v ≤ largest data) ∧
    (smallest data ≤ (calculateMode data).1 ∧ (calculateMode data).1 ≤ largest data) := by
  have hb : ∀ x ∈ data, smallest data ≤ x ∧ x ≤ largest data :=
    fun x hx => ⟨smallest_le data x hx, le_largest data x hx⟩
  refine ⟨⟨smallest_mem data hne, largest_mem data hne, hb⟩, ?_, ?_, ?_⟩
  · rw [calculateMean_fst]
    exact average_within data _ _ hne hb
  · have hs : (data.insertionSort (· ≤ ·)).Sorted (· ≤ ·) := List.sorted_insertionSort _ data
    have hp : (data.insertionSort (· ≤ ·)).Perm data := List.perm_insertionSort _ data
    generalize data.insertionSort (· ≤ ·) = T at hs hp
    obtain ⟨v, hrun, hodd, heven⟩ := calculateMedian_spec data T hne hs hp
    refine ⟨v, T, hrun, ?_⟩
    rcases Nat.mod_two_eq_zero_or_one data.length with h | h
    · obtain ⟨a, b, ha, hb1, e⟩ := heven h
      have hax := hb a (hp.subset (List.getElem?_mem ha))
      have hbx := hb b (hp.subset (List.getElem?_mem hb1))
      rw [e]
      constructor <;> linarith [hax.1, hax.2, hbx.1, hbx.2]
    · exact hb v (hp.subset (List.getElem?_mem (hodd h)))
  · rw [calculateMode_fst data hne]
    exact average_within _ _ _ (modes_ne_nil data hne)
      (fun x hx => hb x (modes_subset data hne x hx))

/-- Witness for C19 on the dataset `[3, 1, 2, 5, 4, 4]`. -/
theorem statistics_within_range_witness :
    (smallest ([3, 1, 2, 5, 4, 4] : List ℚ) ∈ ([3, 1, 2, 5, 4, 4] : List ℚ) ∧
      largest ([3, 1, 2, 5, 4, 4] : List ℚ) ∈ ([3, 1, 2, 5, 4, 4] : List ℚ) ∧
      ∀ x ∈ ([3, 1, 2, 5, 4, 4] : List ℚ), smallest ([3, 1, 2, 5, 4, 4] : List ℚ) ≤ x ∧
        x ≤ largest ([3, 1, 2, 5, 4, 4] : List ℚ)) ∧
    (smallest ([3, 1, 2, 5, 4, 4] : List ℚ) ≤ (calculateMean ([3, 1, 2, 5, 4, 4] : List ℚ)).1 ∧
      (calculateMean ([3, 1, 2, 5, 4, 4] : List ℚ)).1 ≤ largest ([3, 1, 2, 5, 4, 4] : List ℚ)) ∧
    (∃ (v : ℚ) (data1 : List ℚ), calculateMedian [3, 1, 2, 5, 4, 4] = Except.ok (v, data1) ∧
      smallest ([3, 1, 2, 5, 4, 4] : List ℚ) ≤ v ∧ v ≤ largest ([3, 1, 2, 5, 4, 4] : List ℚ)) ∧
    (smallest ([3, 1, 2, 5, 4, 4] : List ℚ) ≤ (calculateMode ([3, 1, 2, 5, 4, 4] : List ℚ)).1 ∧
      (calculateMode ([3, 1, 2, 5, 4, 4] : List ℚ)).1 ≤ largest ([3, 1, 2, 5, 4, 4] : List ℚ)) :=
  statistics_within_range [3, 1, 2, 5, 4, 4] (by decide)

/-- The value `calculateMedian` returns is the conventional median of the
sorted sequence it leaves in `data`. -/
theorem calculateMedian_eq_medianOfSorted (data T : List α) (hne : data ≠ [])
    (hs : T.Sorted (· ≤ ·)) (hp : T.Perm data) :
    calculateMedian data = Except.ok (medianOfSorted T, T) := by
  obtain ⟨v, hrun, hodd, heven⟩ := calculateMedian_spec data T hne hs hp
  have hlen : T.length = data.length := hp.length_eq
  have hv : v = medianOfSorted T := by
    unfold medianOfSorted
    rw [hlen]
    by_cases hpar : data.length % 2 = 1
    · rw [if_pos hpar, List.getD_eq_getElem?_getD, hodd hpar]
      rfl
    · rw [if_neg hpar]
      obtain ⟨a, b, ha, hb, hab⟩ := heven (by omega)
      rw [List.getD_eq_getElem?_getD, List.getD_eq_getElem?_getD, ha, hb]
      exact hab
  rw [hrun, hv]

/-- C10: whatever the order of the dataset when `saveToCSV` is called, the
values of the `Sorted values` row are the dataset in non-decreasing order,
every value as often as it occurs in the dataset.  The three rows before it
carry the statistics of that dataset: all three are `0` for the empty dataset,
and otherwise the mean is the sum of the values divided by their number, the
median is the middle value of the sorted row (the mean of the two middle values
when the number of values is even), and the mode is the arithmetic mean of the
distinct values that occur most often.  They are the values `calculateMean`,
`calculateMedian` and `calculateMode` return on the dataset. -/
theorem saveToCSV_rows (data : List α) :
    ∃ (rows : CsvRows α) (data1 : List α), saveToCSV data = Except.ok (rows, data1) ∧
      rows.sortedValues.Sorted (· ≤ ·) ∧ rows.sortedValues.Perm data ∧
      (∀ x : α, rows.sortedValues.count x = data.count x) ∧
      (data = [] → rows.mean = 0 ∧ rows.median = 0 ∧ rows.mode = 0) ∧
      (data ≠ [] → rows.mean = data.sum / (data.length : α) ∧
        rows.median = medianOfSorted rows.sortedValues ∧
        rows.mode = modeSpec data) ∧
      rows.mean = (calculateMean data).1 ∧
      (∃ d : List α, calculateMedian data = Except.ok (rows.median, d)) ∧
      rows.mode = (calculateMode data).1 := by
  by_cases hne : data = []
  · subst hne
    exact ⟨_, _, rfl, List.sorted_nil, List.Perm.refl _, fun _ => rfl,
      fun _ => ⟨rfl, rfl, rfl⟩, fun h => absurd rfl h, rfl, ⟨_, rfl⟩, rfl⟩
  · have hs : (data.insertionSort (· ≤ ·)).Sorted (· ≤ ·) := List.sorted_insertionSort _ data
    have hp : (data.insertionSort (· ≤ ·)).Perm data := List.perm_insertionSort _ data
    generalize data.insertionSort (· ≤ ·) = T at hs hp
    have hrun := calculateMedian_eq_medianOfSorted data T hne hs hp
    have hTne : T ≠ [] := fun h => hne (by subst h; exact hp.symm.eq_nil)
    have hmean : calculateMean data = ((calculateMean data).1, data) :=
      Prod.ext rfl (calculateMean_snd data)
    have hmode : calculateMode T = ((calculateMode T).1, T) :=
      Prod.ext rfl (calculateMode_snd T)
    have hm : (calculateMode T).1 = (calculateMode data).1 := by
      rw [calculateMode_spec T hTne, calculateMode_spec data hne, modeSpec_perm T data hp]
    refine ⟨{ mean := (calculateMean data).1, median := medianOfSorted T,
              mode := (calculateMode T).1, sortedValues := T }, T, ?_, hs, hp,
      fun x => hp.count_eq x, fun h => absurd h hne,
      fun _ => ⟨calculateMean_fst data, rfl, hm.trans (calculateMode_spec data hne)⟩, rfl,
      ⟨T, hrun⟩, hm⟩
    unfold saveToCSV
    rw [hmean]
    simp only []
    rw [hrun]
    simp only []
    rw [hmode]

/-- Witness for C10: the dataset `[3, 1, 2, 5, 4, 4]`, which is not empty. -/
theorem saveToCSV_rows_witness :
    ∃ (rows : CsvRows ℚ) (data1 : List ℚ),
      saveToCSV ([3, 1, 2, 5, 4, 4] : List ℚ) = Except.ok (rows, data1) ∧
      rows.sortedValues = [1, 2, 3, 4, 4, 5] ∧
      rows.mean = 19 / 6 ∧ rows.median = 7 / 2 ∧
      rows.mode = modeSpec ([3, 1, 2, 5, 4, 4] : List ℚ) := by
  obtain ⟨rows, data1, hrun, hs, hp, -, -, hstat, -, -, -⟩ :=
    saveToCSV_rows ([3, 1, 2, 5, 4, 4] : List ℚ)
  obtain ⟨hmean, hmedian, hmode⟩ := hstat (by decide)
  have hsorted : rows.sortedValues = [1, 2, 3, 4, 4, 5] :=
    List.eq_of_perm_of_sorted
      (hp.trans (show ([3, 1, 2, 5, 4, 4] : List ℚ).Perm [1, 2, 3, 4, 4, 5] from by decide))
      hs (by norm_num)
  refine ⟨rows, data1, hrun, hsorted, ?_, ?_, hmode⟩
  · rw [hmean]; norm_num
  · rw [hmedian, hsorted]; norm_num [medianOfSorted]

end StatisticsFrameProofs

section TraceProofs

variable {α : Type}

theorem within_mono (e : Access) (lo1 hi1 lo hi : Int) (h : e.within lo1 hi1)
    (hlo : lo ≤ lo1) (hhi : hi1 ≤ hi) : e.within lo hi := by
  cases e with
  | arrRead index => exact ⟨le_trans hlo h.1, le_trans h.2 hhi⟩
  | arrWrite index => exact ⟨le_trans hlo h.1, le_trans h.2 hhi⟩
  | runRead index size => exact h

theorem copyReads_within (first n lo hi : Int) (hlo : lo ≤ first) (hhi : first + n ≤ hi + 1) :
    ∀ e ∈ copyReads first n, e.within lo hi := by
  intro e he
  simp only [copyReads, List.mem_map, List.mem_range] at he
  obtain ⟨t, ht, rfl⟩ := he
  constructor
  · show lo ≤ first + (t : Int)
    omega
  · show first + (t : Int) ≤ hi
    omega

theorem copyRestTraced_spec (src : List α) (lo hi : Int) :
    ∀ (fuel : Nat) (pre hole post : List α) (i : Nat) (log : List Access), i ≤ src.length →
      hole.length = src.length - i → src.length - i ≤ fuel →
      lo ≤ (pre.length : Int) → (pre.length : Int) + (hole.length : Int) ≤ hi + 1 →
      ∃ ev : List Access,
        copyRestTraced src (src.length : Int) fuel (pre ++ hole ++ post) (i : Int)
            (pre.length : Int) log
          = Except.ok ((pre ++ src.drop i ++ post, (src.length : Int),
              ((pre.length + (src.length - i) : Nat) : Int)), log ++ ev) ∧
        ∀ e ∈ ev, e.within lo hi := by
  intro fuel
  induction fuel with
  | zero =>
    intro pre hole post i log hi1 hh hf hlo hhi
    have hi2 : i = src.length := by omega
    subst hi2
    have : hole = [] := by
      apply List.eq_nil_of_length_eq_zero; omega
    subst this
    exact ⟨[], by simp [copyRestTraced], fun e he => by simp at he⟩
  | succ fuel ih =>
    intro pre hole post i log hi1 hh hf hlo hhi
    by_cases hlt : i < src.length
    · have hlt2 : (i : Int) < (src.length : Int) := by omega
      cases hole with
      | nil => simp at hh; omega
      | cons x hole1 =>
        rw [copyRestTraced, if_pos hlt2, readAt_natCast src i hlt]
        simp only [List.append_assoc, List.cons_append]
        rw [writeAt_append]
        have e1 : pre ++ src[i] :: (hole1 ++ post) = (pre ++ [src[i]]) ++ hole1 ++ post := by simp
        have e2 : ((pre.length : Int) + 1) = ((pre ++ [src[i]]).length : Int) := by simp
        have e3 : ((i : Int) + 1) = ((i + 1 : Nat) : Int) := by simp
        simp only []
        simp only [List.length_cons] at hh hhi
        obtain ⟨ev, hrun, hev⟩ := ih (pre ++ [src[i]]) hole1 post (i + 1)
          (log ++ [Access.runRead (i : Int) (src.length : Int),
            Access.arrWrite (pre.length : Int)])
          (by omega) (by omega) (by omega) (by simp; omega) (by simp; omega)
        refine ⟨[Access.runRead (i : Int) (src.length : Int),
            Access.arrWrite (pre.length : Int)] ++ ev, ?_, ?_⟩
        · rw [e1]
          have e4 : List.drop i src = src[i] :: List.drop (i + 1) src :=
            List.drop_eq_getElem_cons hlt
          rw [e4]
          have hrun2 := hrun
          rw [← e2, ← e3] at hrun2
          rw [hrun2]
          simp
          omega
        · intro e he
          rcases List.mem_append.mp he with h | h
          · simp only [List.mem_cons, List.mem_singleton, List.not_mem_nil, or_false] at h
            rcases h with rfl | rfl
            · exact ⟨by omega, hlt2⟩
            · exact ⟨hlo, by omega⟩
          · exact hev e h
    · have hi2 : i = src.length := by omega
      subst hi2
      have : hole = [] := by
        apply List.eq_nil_of_length_eq_zero; omega
      subst this
      exact ⟨[], by simp [copyRestTraced], fun e he => by simp at he⟩

variable [LinearOrder α]

theorem mergeLoopTraced_stop (L R : List α) (fuel : Nat) (arr : List α) (i j k : Int)
    (log : List Access) (h : ¬ (i < (L.length : Int) ∧ j < (R.length : Int))) :
    mergeLoopTraced L R L.length R.length fuel arr i j k log = Except.ok ((arr, i, j, k), log) := by
  cases fuel <;> simp [mergeLoopTraced, h]

/-- The traced first loop of `merge` computes what `mergeLoop` computes, and
the accesses it records stay inside the part of `arr` still to be written and
below the sizes of the runs. -/
theorem mergeLoopTraced_spec (L R : List α) (lo hi : Int) :
    ∀ (fuel : Nat) (pre hole post : List α) (i j : Nat) (log : List Access),
      i ≤ L.length → j ≤ R.length →
      hole.length = (L.length - i) + (R.length - j) →
      (L.length - i) + (R.length - j) ≤ fuel →
      lo ≤ (pre.length : Int) → (pre.length : Int) + (hole.length : Int) ≤ hi + 1 →
      ∃ ev : List Access,
        mergeLoopTraced L R L.length R.length fuel (pre ++ hole ++ post) i j pre.length log
          = Except.map (fun r => (r, log ++ ev))
              (mergeLoop L R L.length R.length fuel (pre ++ hole ++ post) i j pre.length) ∧
        ∀ e ∈ ev, e.within lo hi := by
  intro fuel
  induction fuel with
  | zero =>
    intro pre hole post i j log hi1 hj hh hf hlo hhi
    refine ⟨[], ?_, fun e he => by simp at he⟩
    rw [mergeLoopTraced_stop L R 0 _ _ _ _ _ (by omega), mergeLoop_stop L R 0 _ _ _ _ (by omega)]
    simp [Except.map]
  | succ fuel ih =>
    intro pre hole post i j log hi1 hj hh hf hlo hhi
    by_cases hc : i < L.length ∧ j < R.length
    · obtain ⟨hil, hjl⟩ := hc
      have hc2 : (i : Int) < (L.length : Int) ∧ (j : Int) < (R.length : Int) := by omega
      cases hole with
      | nil => simp at hh; omega
      | cons x hole0 =>
        simp only [List.length_cons] at hh hhi
        rw [mergeLoopTraced, mergeLoop, if_pos hc2, if_pos hc2, readAt_natCast L i hil,
          readAt_natCast R j hjl]
        simp only [List.append_assoc, List.cons_append]
        by_cases hab : L[i] ≤ R[j]
        · simp only [if_pos hab]
          rw [writeAt_append]
          have e1 : pre ++ L[i] :: (hole0 ++ post) = (pre ++ [L[i]]) ++ hole0 ++ post := by simp
          have e2 : ((pre.length : Int) + 1) = ((pre ++ [L[i]]).length : Int) := by simp
          have e3 : ((i : Int) + 1) = ((i + 1 : Nat) : Int) := by simp
          simp only []
          rw [e1, e2, e3]
          obtain ⟨ev, hrun, hev⟩ := ih (pre ++ [L[i]]) hole0 post (i + 1) j
            (log ++ [Access.runRead (i : Int) (L.length : Int),
              Access.runRead (j : Int) (R.length : Int),
              Access.runRead (i : Int) (L.length : Int), Access.arrWrite (pre.length : Int)])
            (by omega) hj (by omega) (by omega) (by simp; omega) (by simp; omega)
          refine ⟨[Access.runRead (i : Int) (L.length : Int),
              Access.runRead (j : Int) (R.length : Int),
              Access.runRead (i : Int) (L.length : Int), Access.arrWrite (pre.length : Int)]
              ++ ev, ?_, ?_⟩
          · rw [hrun]
            simp only [List.append_assoc]
          · intro e he
            rcases List.mem_append.mp he with h | h
            · simp only [List.mem_cons, List.mem_singleton, List.not_mem_nil, or_false] at h
              rcases h with rfl | rfl | rfl | rfl
              · exact ⟨by omega, hc2.1⟩
              · exact ⟨by omega, hc2.2⟩
              · exact ⟨by omega, hc2.1⟩
              · exact ⟨hlo, by omega⟩
            · exact hev e h
        · simp only [if_neg hab]
          rw [writeAt_append]
          have e1 : pre ++ R[j] :: (hole0 ++ post) = (pre ++ [R[j]]) ++ hole0 ++ post := by simp
          have e2 : ((pre.length : Int) + 1) = ((pre ++ [R[j]]).length : Int) := by simp
          have e3 : ((j : Int) + 1) = ((j + 1 : Nat) : Int) := by simp
          simp only []
          rw [e1, e2, e3]
          obtain ⟨ev, hrun, hev⟩ := ih (pre ++ [R[j]]) hole0 post i (j + 1)
            (log ++ [Access.runRead (i : Int) (L.length : Int),
              Access.runRead (j : Int) (R.length : Int),
              Access.runRead (j : Int) (R.length : Int), Access.arrWrite (pre.length : Int)])
            hi1 (by omega) (by omega) (by omega) (by simp; omega) (by simp; omega)
          refine ⟨[Access.runRead (i : Int) (L.length : Int),
              Access.runRead (j : Int) (R.length : Int),
              Access.runRead (j : Int) (R.length : Int), Access.arrWrite (pre.length : Int)]
              ++ ev, ?_, ?_⟩
          · rw [hrun]
            simp only [List.append_assoc]
          · intro e he
            rcases List.mem_append.mp he with h | h
            · simp only [List.mem_cons, List.mem_singleton, List.not_mem_nil, or_false] at h
              rcases h with rfl | rfl | rfl | rfl
              · exact ⟨by omega, hc2.1⟩
              · exact ⟨by omega, hc2.2⟩
              · exact ⟨by omega, hc2.2⟩
              · exact ⟨hlo, by omega⟩
            · exact hev e h
    · refine ⟨[], ?_, fun e he => by simp at he⟩
      rw [mergeLoopTraced_stop L R _ _ _ _ _ _ (by omega),
        mergeLoop_stop L R _ _ _ _ _ (by omega)]
      simp [Except.map]

/-- The traced `merge` computes what `merge` computes, and every access it
records is inside `left..right` or below the size of the run read. -/
theorem mergeTraced_spec (pre A B post : List α) (left mid right : Int) (log : List Access)
    (hl : left = (pre.length : Int)) (hm : mid - left + 1 = (A.length : Int))
    (hr : right - mid = (B.length : Int)) :
    ∃ ev : List Access,
      mergeTraced (pre ++ A ++ B ++ post) left mid right log
        = Except.ok (pre ++ List.merge A B (fun a b => decide (a ≤ b)) ++ post, log ++ ev) ∧
      ∀ e ∈ ev, e.within left right := by
  subst hl
  have hm1 : mid + 1 = ((pre ++ A).length : Int) := by simp; omega
  unfold mergeTraced
  simp only []
  rw [hm, hr, hm1]
  have c1 : copyRange (pre ++ A ++ B ++ post) (pre.length : Int) (A.length : Int)
      = Except.ok A := by
    have := copyRange_append pre A (B ++ post)
    simpa using this
  have c2 : copyRange (pre ++ A ++ B ++ post) ((pre ++ A).length : Int) (B.length : Int)
      = Except.ok B := copyRange_append (pre ++ A) B post
  rw [c1, c2]
  simp only []
  obtain ⟨out, hole1, i1, j1, hrun, h1, h2, h3, h4, h5⟩ :=
    mergeLoop_spec A B (A.length + B.length) pre (A ++ B) post 0 0 (by omega) (by omega)
      (by simp) (by simp)
  have hlenAB : (A ++ B).length = A.length + B.length := List.length_append A B
  obtain ⟨ev1, htr, hev1⟩ :=
    mergeLoopTraced_spec A B (pre.length : Int) right (A.length + B.length) pre (A ++ B) post 0 0
      (log ++ copyReads (pre.length : Int) (A.length : Int) ++ copyReads ((pre ++ A).length : Int)
        (B.length : Int))
      (by omega) (by omega) (by simp) (by simp) (by omega)
      (by rw [hlenAB]; push_cast; omega)
  have hout : out.length = i1 + j1 := by
    have := congrArg List.length h5
    simp only [List.length_append, List.length_merge, List.length_drop, List.drop_zero] at this
    omega
  have ef : ((A.length : Int) + (B.length : Int)).toNat = A.length + B.length := by omega
  have earr : pre ++ A ++ B ++ post = pre ++ (A ++ B) ++ post := by simp
  rw [ef, earr]
  rw [hrun] at htr
  simp only [Nat.cast_zero, Except.map] at htr
  rw [htr]
  simp only []
  -- second loop
  have ef2 : ((A.length : Int) - (i1 : Int)).toNat = A.length - i1 := by omega
  have earr2 : pre ++ out ++ hole1 ++ post
      = (pre ++ out) ++ hole1.take (A.length - i1) ++ (hole1.drop (A.length - i1) ++ post) := by
    rw [List.append_assoc _ _ (_ ++ post), ← List.append_assoc _ _ post, List.take_append_drop,
      List.append_assoc (pre ++ out)]
  have ek : ((pre.length + out.length : Nat) : Int) = ((pre ++ out).length : Int) := by simp
  obtain ⟨ev2, hc2run, hev2⟩ :=
    copyRestTraced_spec A (pre.length : Int) right (A.length - i1) (pre ++ out)
      (hole1.take (A.length - i1))
      (hole1.drop (A.length - i1) ++ post) i1
      (log ++ copyReads (pre.length : Int) (A.length : Int) ++ copyReads ((pre ++ A).length : Int)
        (B.length : Int) ++ ev1)
      h1 (by simp; omega) (le_refl _) (by simp only [List.length_append]; push_cast; omega)
      (by simp only [List.length_append, List.length_take]; push_cast; omega)
  rw [ef2, earr2, ek, hc2run]
  simp only []
  -- third loop
  have ef3 : ((B.length : Int) - (j1 : Int)).toNat = B.length - j1 := by omega
  have earr3 : pre ++ out ++ List.drop i1 A ++ (hole1.drop (A.length - i1) ++ post)
      = (pre ++ out ++ List.drop i1 A) ++ hole1.drop (A.length - i1) ++ post := by
    simp
  have ek3 : (((pre ++ out).length + (A.length - i1) : Nat) : Int)
      = ((pre ++ out ++ List.drop i1 A).length : Int) := by simp; omega
  obtain ⟨ev3, hc3run, hev3⟩ :=
    copyRestTraced_spec B (pre.length : Int) right (B.length - j1) (pre ++ out ++ List.drop i1 A)
      (hole1.drop (A.length - i1)) post j1
      (log ++ copyReads (pre.length : Int) (A.length : Int) ++ copyReads ((pre ++ A).length : Int)
        (B.length : Int) ++ ev1 ++ ev2)
      h2 (by simp; omega) (le_refl _)
      (by simp only [List.length_append, List.length_drop]; push_cast; omega)
      (by simp only [List.length_append, List.length_drop]; push_cast; omega)
  rw [ef3, earr3, ek3, hc3run]
  simp only []
  have hfin : out ++ List.drop i1 A ++ List.drop j1 B
      = List.merge A B (fun a b => decide (a ≤ b)) := by
    have h5b := h5
    simp only [List.drop_zero] at h5b
    rw [← h5b]
    rcases h3 with h3 | h3
    · subst h3; simp [List.nil_merge]
    · subst h3; simp [List.merge_right]
  refine ⟨copyReads (pre.length : Int) (A.length : Int) ++ copyReads ((pre ++ A).length : Int) (B.length : Int)
      ++ ev1 ++ ev2 ++ ev3, ?_, ?_⟩
  · rw [← hfin]
    simp
  · intro e he
    simp only [List.mem_append] at he
    rcases he with (((h | h) | h) | h) | h
    · exact copyReads_within (pre.length : Int) _ (pre.length : Int) right (le_refl _) (by omega) e h
    · exact copyReads_within _ _ (pre.length : Int) right (by rw [← hm1]; omega) (by rw [← hm1]; omega) e h
    · exact hev1 e h
    · exact hev2 e h
    · exact hev3 e h

/-- The traced recursion computes what `mergeSortFuel` computes, and every
access it records is inside `left..right` or below the size of the run read. -/
theorem mergeSortFuelTraced_spec :
    ∀ (fuel : Nat) (pre seg post : List α) (left right : Int) (log : List Access),
      left = (pre.length : Int) → right = (pre.length : Int) + (seg.length : Int) - 1 →
      seg.length - 1 ≤ fuel →
      ∃ (s : List α) (ev : List Access),
        mergeSortFuelTraced fuel (pre ++ seg ++ post) left right log
          = Except.ok (pre ++ s ++ post, log ++ ev) ∧
        mergeSortFuel fuel (pre ++ seg ++ post) left right = Except.ok (pre ++ s ++ post) ∧
        s.length = seg.length ∧
        ∀ e ∈ ev, e.within left right := by
  intro fuel
  induction fuel with
  | zero =>
    intro pre seg post left right log hl hr hf
    have : ¬ left < right := by omega
    exact ⟨seg, [], by simp [mergeSortFuelTraced, this], by simp [mergeSortFuel, this], rfl,
      fun e he => by simp at he⟩
  | succ fuel ih =>
    intro pre seg post left right log hl hr hf
    by_cases hlt : left < right
    · rw [mergeSortFuelTraced, mergeSortFuel, if_pos hlt, if_pos hlt]
      simp only []
      have hd : Int.tdiv (right - left) 2 = (((seg.length - 1) / 2 : Nat) : Int) := by
        rw [Int.tdiv_eq_ediv (by omega) (by omega)]
        omega
      rw [hd]
      have hh1 : (seg.length - 1) / 2 + 1 ≤ seg.length := by omega
      have hA : (seg.take ((seg.length - 1) / 2 + 1)).length = (seg.length - 1) / 2 + 1 := by
        simp; omega
      have hB : (seg.drop ((seg.length - 1) / 2 + 1)).length
          = seg.length - ((seg.length - 1) / 2 + 1) := by simp
      have hseg : seg = seg.take ((seg.length - 1) / 2 + 1)
          ++ seg.drop ((seg.length - 1) / 2 + 1) :=
        (List.take_append_drop _ _).symm
      generalize seg.take ((seg.length - 1) / 2 + 1) = A0 at hA hseg
      generalize seg.drop ((seg.length - 1) / 2 + 1) = B0 at hB hseg
      obtain ⟨s1, ev1, htr1, hrun1, hl1, hev1⟩ :=
        ih pre A0 (B0 ++ post) left (left + (((seg.length - 1) / 2 : Nat) : Int)) log hl
          (by omega) (by omega)
      have e1 : pre ++ seg ++ post = pre ++ A0 ++ (B0 ++ post) := by rw [hseg]; simp
      rw [e1, hrun1, htr1]
      simp only []
      obtain ⟨s2, ev2, htr2, hrun2, hl2, hev2⟩ :=
        ih (pre ++ s1) B0 post (left + (((seg.length - 1) / 2 : Nat) : Int) + 1) right
          (log ++ ev1) (by simp; omega) (by simp; omega) (by omega)
      have e2 : pre ++ s1 ++ (B0 ++ post) = pre ++ s1 ++ B0 ++ post := by simp
      rw [e2, hrun2, htr2]
      simp only []
      obtain ⟨ev3, htr3, hev3⟩ :=
        mergeTraced_spec pre s1 s2 post left (left + (((seg.length - 1) / 2 : Nat) : Int)) right
          (log ++ ev1 ++ ev2) hl (by omega) (by omega)
      rw [merge_spec pre s1 s2 post left _ right hl (by omega) (by omega), htr3]
      refine ⟨_, ev1 ++ ev2 ++ ev3, by simp only [List.append_assoc], rfl, ?_, ?_⟩
      · rw [List.length_merge, hl1, hl2, hseg, List.length_append]
      · intro e he
        simp only [List.mem_append] at he
        rcases he with (h | h) | h
        · exact within_mono e _ _ _ _ (hev1 e h) (le_refl _) (by omega)
        · exact within_mono e _ _ _ _ (hev2 e h) (by omega) (le_refl _)
        · exact hev3 e h
    · exact ⟨seg, [], by simp [mergeSortFuelTraced, hlt], by simp [mergeSortFuel, hlt], rfl,
        fun e he => by simp at he⟩

/-- C15: for `0 ≤ left ≤ right < arr.size()`, the run of `mergeSort` with every
access recorded gives the same array as `mergeSort`, without fault, and every
read and write of `arr` it makes is at an index within `left..right`, itself
within the array, and every read of a run `L` or `R` is at an index below the
size `n1` or `n2` of that run. -/
theorem mergeSort_accesses_in_range (arr : List α) (left right : Int)
    (h0 : 0 ≤ left) (h1 : left ≤ right) (h2 : right < (arr.length : Int)) :
    ∃ (arr1 : List α) (trace : List Access),
      mergeSortTraced arr left right = Except.ok (arr1, trace) ∧
      mergeSort arr left right = Except.ok arr1 ∧
      (∀ e ∈ trace, e.within left right) ∧
      (∀ index : Int, (Access.arrRead index ∈ trace ∨ Access.arrWrite index ∈ trace) →
        left ≤ index ∧ index ≤ right ∧ 0 ≤ index ∧ index < (arr.length : Int)) ∧
      (∀ index size : Int, Access.runRead index size ∈ trace → 0 ≤ index ∧ index < size) := by
  have harr := slice_decomp arr left.toNat right.toNat (by omega)
  have hlen : ((arr.drop left.toNat).take (right.toNat + 1 - left.toNat)).length
      = right.toNat + 1 - left.toNat := by
    simp; omega
  obtain ⟨s, ev, htr, hrun, -, hev⟩ :=
    mergeSortFuelTraced_spec (right - left).toNat (arr.take left.toNat)
      ((arr.drop left.toNat).take (right.toNat + 1 - left.toNat))
      (arr.drop (right.toNat + 1)) left right []
      (by simp; omega) (by rw [hlen]; simp; omega) (by rw [hlen]; omega)
  rw [← harr] at htr hrun
  refine ⟨_, ev, ?_, hrun, ?_, ?_, ?_⟩
  · unfold mergeSortTraced
    rw [htr]
    simp
  · exact hev
  · intro index hidx
    rcases hidx with h | h
    · have hw : left ≤ index ∧ index ≤ right := hev _ h
      exact ⟨hw.1, hw.2, by omega, by omega⟩
    · have hw : left ≤ index ∧ index ≤ right := hev _ h
      exact ⟨hw.1, hw.2, by omega, by omega⟩
  · intro index size h
    exact hev _ h

/-- Witness for C15: sorting positions `1..3` of a five-element array. -/
theorem mergeSort_accesses_in_range_witness :
    ∃ (arr1 : List ℚ) (trace : List Access),
      mergeSortTraced [9, 4, 7, 1, 0] 1 3 = Except.ok (arr1, trace) ∧
      mergeSort [9, 4, 7, 1, 0] 1 3 = Except.ok arr1 ∧
      (∀ e ∈ trace, e.within 1 3) ∧
      (∀ index : Int, (Access.arrRead index ∈ trace ∨ Access.arrWrite index ∈ trace) →
        1 ≤ index ∧ index ≤ 3 ∧ 0 ≤ index ∧
          index < ((([9, 4, 7, 1, 0] : List ℚ).length : Nat) : Int)) ∧
      (∀ index size : Int, Access.runRead index size ∈ trace → 0 ≤ index ∧ index < size) :=
  mergeSort_accesses_in_range [9, 4, 7, 1, 0] 1 3 (by decide) (by decide) (by decide)

omit [LinearOrder α] in
theorem readAt_error (v : List α) (i : Int) (e : Fault) (h : readAt v i = Except.error e) :
    e = Fault.outOfBounds := by
  unfold readAt at h
  split at h
  · split at h
    · cases h
    · cases h; rfl
  · cases h; rfl

omit [LinearOrder α] in
theorem writeAt_error (v : List α) (i : Int) (x : α) (e : Fault)
    (h : writeAt v i x = Except.error e) : e = Fault.outOfBounds := by
  unfold writeAt at h
  split at h
  · cases h
  · cases h; rfl

omit [LinearOrder α] in
theorem copyRange_error (v : List α) (first n : Int) (e : Fault)
    (h : copyRange v first n = Except.error e) : e = Fault.outOfBounds := by
  unfold copyRange at h
  split at h
  · cases h
  · cases h; rfl

omit [LinearOrder α] in
theorem copyRange_ok_nonneg (v : List α) (first n : Int) (L : List α)
    (h : copyRange v first n = Except.ok L) : 0 ≤ n := by
  unfold copyRange at h
  split at h
  · rename_i hc; exact hc.2.1
  · cases h

omit [LinearOrder α] in
/-- The trailing loops of `merge` never exhaust a budget of `n - i` steps. -/
theorem copyRest_ne_outOfFuel (src : List α) (n : Int) :
    ∀ (fuel : Nat) (arr : List α) (i k : Int), (n - i).toNat ≤ fuel →
      copyRest src n fuel arr i k ≠ Except.error Fault.outOfFuel := by
  intro fuel
  induction fuel with
  | zero =>
    intro arr i k hf
    have : ¬ i < n := by omega
    simp [copyRest, this]
  | succ fuel ih =>
    intro arr i k hf
    rw [copyRest]
    by_cases hlt : i < n
    · rw [if_pos hlt]
      cases hr : readAt src i with
      | error e =>
        simp only []
        rw [readAt_error _ _ _ hr]
        simp
      | ok a =>
        simp only []
        cases hw : writeAt arr k a with
        | error e =>
          simp only []
          rw [writeAt_error _ _ _ _ hw]
          simp
        | ok arr1 =>
          simp only []
          exact ih arr1 (i + 1) (k + 1) (by omega)
    · rw [if_neg hlt]
      simp

/-- The first loop of `merge` never exhausts a budget of `(n1 - i) + (n2 - j)`
steps. -/
theorem mergeLoop_ne_outOfFuel (L R : List α) (n1 n2 : Int) :
    ∀ (fuel : Nat) (arr : List α) (i j k : Int), (n1 - i).toNat + (n2 - j).toNat ≤ fuel →
      mergeLoop L R n1 n2 fuel arr i j k ≠ Except.error Fault.outOfFuel := by
  intro fuel
  induction fuel with
  | zero =>
    intro arr i j k hf
    have : ¬ (i < n1 ∧ j < n2) := by omega
    simp [mergeLoop, this]
  | succ fuel ih =>
    intro arr i j k hf
    rw [mergeLoop]
    by_cases hc : i < n1 ∧ j < n2
    · rw [if_pos hc]
      cases hr1 : readAt L i with
      | error e =>
        simp only []
        rw [readAt_error _ _ _ hr1]
        simp
      | ok a =>
        cases hr2 : readAt R j with
        | error e =>
          simp only []
          rw [readAt_error _ _ _ hr2]
          simp
        | ok b =>
          simp only []
          by_cases hab : a ≤ b
          · rw [if_pos hab]
            cases hw : writeAt arr k a with
            | error e =>
              simp only []
              rw [writeAt_error _ _ _ _ hw]
              simp
            | ok arr1 =>
              simp only []
              exact ih arr1 (i + 1) j (k + 1) (by omega)
          · rw [if_neg hab]
            cases hw : writeAt arr k b with
            | error e =>
              simp only []
              rw [writeAt_error _ _ _ _ hw]
              simp
            | ok arr1 =>
              simp only []
              exact ih arr1 i (j + 1) (k + 1) (by omega)
    · rw [if_neg hc]
      simp

/-- `merge` never ends with an exhausted budget, whatever its arguments. -/
theorem merge_ne_outOfFuel (arr : List α) (left mid right : Int) :
    merge arr left mid right ≠ Except.error Fault.outOfFuel := by
  unfold merge
  simp only []
  cases hL : copyRange arr left (mid - left + 1) with
  | error e =>
    simp only []
    rw [copyRange_error _ _ _ _ hL]
    simp
  | ok L =>
    cases hR : copyRange arr (mid + 1) (right - mid) with
    | error e =>
      simp only []
      rw [copyRange_error _ _ _ _ hR]
      simp
    | ok R =>
      simp only []
      have hn1 := copyRange_ok_nonneg _ _ _ _ hL
      have hn2 := copyRange_ok_nonneg _ _ _ _ hR
      have hloop := mergeLoop_ne_outOfFuel L R (mid - left + 1) (right - mid)
        (mid - left + 1 + (right - mid)).toNat arr 0 0 left (by omega)
      cases h1 : mergeLoop L R (mid - left + 1) (right - mid)
          (mid - left + 1 + (right - mid)).toNat arr 0 0 left with
      | error e =>
        simp only []
        intro h
        rw [h1] at hloop
        exact hloop (by cases h; rfl)
      | ok r1 =>
        obtain ⟨arr1, i, j, k⟩ := r1
        simp only []
        have hrest1 := copyRest_ne_outOfFuel L (mid - left + 1)
          (mid - left + 1 - i).toNat arr1 i k (le_refl _)
        cases h2 : copyRest L (mid - left + 1) (mid - left + 1 - i).toNat arr1 i k with
        | error e =>
          simp only []
          intro h
          rw [h2] at hrest1
          exact hrest1 (by cases h; rfl)
        | ok r2 =>
          obtain ⟨arr2, i2, k2⟩ := r2
          simp only []
          have hrest2 := copyRest_ne_outOfFuel R (right - mid) (right - mid - j).toNat arr2 j k2
            (le_refl _)
          cases h3 : copyRest R (right - mid) (right - mid - j).toNat arr2 j k2 with
          | error e =>
            simp only []
            intro h
            rw [h3] at hrest2
            exact hrest2 (by cases h; rfl)
          | ok r3 =>
            obtain ⟨arr3, i3, k3⟩ := r3
            simp

theorem midpoint_bounds (left right : Int) (h : left < right) :
    left ≤ left + Int.tdiv (right - left) 2 ∧ left + Int.tdiv (right - left) 2 < right := by
  rw [Int.tdiv_eq_ediv (by omega) (by omega)]
  omega

/-- The recursion of `mergeSort` never exhausts a depth budget of at least
`right - left`, whatever the array and the indices. -/
theorem mergeSortFuel_ne_outOfFuel :
    ∀ (fuel : Nat) (arr : List α) (left right : Int), (right - left).toNat ≤ fuel →
      mergeSortFuel fuel arr left right ≠ Except.error Fault.outOfFuel := by
  intro fuel
  induction fuel with
  | zero =>
    intro arr left right hf
    have : ¬ left < right := by omega
    simp [mergeSortFuel, this]
  | succ fuel ih =>
    intro arr left right hf
    rw [mergeSortFuel]
    by_cases hlt : left < right
    · rw [if_pos hlt]
      simp only []
      obtain ⟨hm1, hm2⟩ := midpoint_bounds left right hlt
      generalize left + Int.tdiv (right - left) 2 = mid at hm1 hm2
      have hfirst := ih arr left mid (by omega)
      cases h1 : mergeSortFuel fuel arr left mid with
      | error e =>
        simp only []
        intro h
        rw [h1] at hfirst
        exact hfirst h
      | ok arr1 =>
        simp only []
        have hsecond := ih arr1 (mid + 1) right (by omega)
        cases h2 : mergeSortFuel fuel arr1 (mid + 1) right with
        | error e =>
          simp only []
          intro h
          rw [h2] at hsecond
          exact hsecond h
        | ok arr2 =>
          simp only []
          exact merge_ne_outOfFuel arr2 left mid right
    · rw [if_neg hlt]
      simp

/-- One more level of depth budget than `right - left` changes nothing. -/
theorem mergeSortFuel_succ :
    ∀ (fuel : Nat) (arr : List α) (left right : Int), (right - left).toNat ≤ fuel →
      mergeSortFuel (fuel + 1) arr left right = mergeSortFuel fuel arr left right := by
  intro fuel
  induction fuel with
  | zero =>
    intro arr left right hf
    have : ¬ left < right := by omega
    simp [mergeSortFuel, this]
  | succ fuel ih =>
    intro arr left right hf
    by_cases hlt : left < right
    · obtain ⟨hm1, hm2⟩ := midpoint_bounds left right hlt
      conv_lhs => rw [mergeSortFuel]
      conv_rhs => rw [mergeSortFuel]
      rw [if_pos hlt, if_pos hlt]
      simp only []
      generalize left + Int.tdiv (right - left) 2 = mid at hm1 hm2
      rw [ih arr left mid (by omega)]
      cases h1 : mergeSortFuel fuel arr left mid with
      | error e => rfl
      | ok arr1 =>
        simp only []
        rw [ih arr1 (mid + 1) right (by omega)]
    · conv_lhs => rw [mergeSortFuel]
      conv_rhs => rw [mergeSortFuel]
      rw [if_neg hlt, if_neg hlt]

theorem mergeSortFuel_add (arr : List α) (left right : Int) :
    ∀ d : Nat, mergeSortFuel ((right - left).toNat + d) arr left right
      = mergeSortFuel (right - left).toNat arr left right := by
  intro d
  induction d with
  | zero => rfl
  | succ d ih =>
    rw [← Nat.add_assoc, mergeSortFuel_succ _ arr left right (by omega), ih]

/-- An exact result inside the range of `int` is not changed by the wrap-around. -/
theorem wrapInt32_of_isInt32 (x : Int) (h : IsInt32 x) : wrapInt32 x = x := by
  unfold IsInt32 at h
  unfold wrapInt32
  omega

/-- Without overflow of `right - left` the 32-bit midpoint is the exact one. -/
theorem midpoint32_eq (left right : Int) (hl : IsInt32 left) (hr : IsInt32 right)
    (hlt : left < right) (hd : right - left < 2 ^ 31) :
    midpoint32 left right = left + Int.tdiv (right - left) 2 := by
  unfold IsInt32 at hl hr
  obtain ⟨hm1, hm2⟩ := midpoint_bounds left right hlt
  unfold midpoint32
  rw [wrapInt32_of_isInt32 (right - left) (by unfold IsInt32; omega)]
  exact wrapInt32_of_isInt32 _ (by unfold IsInt32; omega)

/-- Without overflow of `right - left` the run on 32-bit `int` indices is the
run on exact integers. -/
theorem mergeSortFuel32_eq :
    ∀ (fuel : Nat) (arr : List α) (left right : Int), IsInt32 left → IsInt32 right →
      right - left < 2 ^ 31 →
      mergeSortFuel32 fuel arr left right = mergeSortFuel fuel arr left right := by
  intro fuel
  induction fuel with
  | zero =>
    intro arr left right _ _ _
    rfl
  | succ fuel ih =>
    intro arr left right hl hr hd
    rw [mergeSortFuel32, mergeSortFuel]
    by_cases hlt : left < right
    · rw [if_pos hlt, if_pos hlt]
      simp only []
      rw [midpoint32_eq left right hl hr hlt hd]
      obtain ⟨hm1, hm2⟩ := midpoint_bounds left right hlt
      generalize left + Int.tdiv (right - left) 2 = mid at hm1 hm2
      have hmid : IsInt32 mid := by unfold IsInt32 at hl hr ⊢; omega
      have hmid1 : IsInt32 (mid + 1) := by unfold IsInt32 at hl hr ⊢; omega
      rw [wrapInt32_of_isInt32 (mid + 1) hmid1, ih arr left mid hl hmid (by omega)]
      cases h1 : mergeSortFuel fuel arr left mid with
      | error e => rfl
      | ok arr1 =>
        simp only []
        rw [ih arr1 (mid + 1) right hmid1 hr (by omega)]
    · rw [if_neg hlt, if_neg hlt]

/-- The call on `(INT_MIN + 1, INT_MAX)` calls itself: no depth budget is enough. -/
theorem mergeSortFuel32_self_call (arr : List α) :
    ∀ fuel : Nat, mergeSortFuel32 fuel arr (-(2 ^ 31) + 1) (2 ^ 31 - 1)
      = Except.error Fault.outOfFuel := by
  have hmid : midpoint32 (-(2 ^ 31) + 1) (2 ^ 31 - 1) = -(2 ^ 31) := by decide
  have hnext : wrapInt32 (-(2 ^ 31) + 1) = -(2 ^ 31) + 1 := by decide
  intro fuel
  induction fuel with
  | zero => rfl
  | succ fuel ih =>
    rw [mergeSortFuel32, if_pos (by decide)]
    simp only []
    rw [hmid, hnext]
    have hfirst : mergeSortFuel32 fuel arr (-(2 ^ 31) + 1) (-(2 ^ 31)) = Except.ok arr := by
      cases fuel with
      | zero => rw [mergeSortFuel32, if_neg (by decide)]
      | succ n => rw [mergeSortFuel32, if_neg (by decide)]
    rw [hfirst]
    simp only []
    rw [ih]

/-- The call on `(INT_MIN, INT_MAX)` reaches the call on `(INT_MIN + 1, INT_MAX)`. -/
theorem mergeSortFuel32_full_range (arr : List α) :
    ∀ fuel : Nat, mergeSortFuel32 fuel arr (-(2 ^ 31)) (2 ^ 31 - 1)
      = Except.error Fault.outOfFuel := by
  have hmid : midpoint32 (-(2 ^ 31)) (2 ^ 31 - 1) = -(2 ^ 31) := by decide
  have hnext : wrapInt32 (-(2 ^ 31) + 1) = -(2 ^ 31) + 1 := by decide
  intro fuel
  cases fuel with
  | zero => rfl
  | succ fuel =>
    rw [mergeSortFuel32, if_pos (by decide)]
    simp only []
    rw [hmid, hnext]
    have hfirst : mergeSortFuel32 fuel arr (-(2 ^ 31)) (-(2 ^ 31)) = Except.ok arr := by
      cases fuel with
      | zero => rw [mergeSortFuel32, if_neg (by decide)]
      | succ n => rw [mergeSortFuel32, if_neg (by decide)]
    rw [hfirst]
    simp only []
    rw [mergeSortFuel32_self_call arr fuel]

/-- C13, where the claim as written fails: with 32-bit `int` indices the call
`mergeSort(arr, INT_MIN + 1, INT_MAX)` has `left < right`, but `right - left`
overflows, the midpoint is `INT_MIN`, below `left`, and the second recursive
call, on `[mid + 1, right]`, is the call itself; so this call, and the call on
`(INT_MIN, INT_MAX)` that leads to it, exhaust every depth budget. -/
theorem mergeSort32_diverges :
    IsInt32 (-(2 ^ 31) + 1) ∧ IsInt32 (2 ^ 31 - 1) ∧ (-(2 ^ 31) + 1 : Int) < 2 ^ 31 - 1 ∧
    midpoint32 (-(2 ^ 31) + 1) (2 ^ 31 - 1) = -(2 ^ 31) ∧
    midpoint32 (-(2 ^ 31) + 1) (2 ^ 31 - 1) < -(2 ^ 31) + 1 ∧
    wrapInt32 (midpoint32 (-(2 ^ 31) + 1) (2 ^ 31 - 1) + 1) = -(2 ^ 31) + 1 ∧
    (∀ fuel : Nat, mergeSortFuel32 fuel ([3, 1, 2] : List ℚ) (-(2 ^ 31) + 1) (2 ^ 31 - 1)
      = Except.error Fault.outOfFuel) ∧
    (∀ fuel : Nat, mergeSortFuel32 fuel ([3, 1, 2] : List ℚ) (-(2 ^ 31)) (2 ^ 31 - 1)
      = Except.error Fault.outOfFuel) :=
  ⟨by decide, by decide, by decide, by decide, by decide, by decide,
    mergeSortFuel32_self_call _, mergeSortFuel32_full_range _⟩

/-- C13, amended: `mergeSort` terminates for every array and every pair of
`int` indices whose difference `right - left` does not overflow, as is the
case for every pair of non-negative indices.  The run on 32-bit indices is then
the run on exact integers, a depth budget of `right - left` is never exhausted
and a larger one gives the same result; for `left >= right` the call returns
the array at once, with no recursive call; for `left < right` the midpoint
satisfies `left <= mid < right`, `mid + 1` does not overflow, and both
recursive calls are on strictly shorter ranges whose difference does not
overflow either; and on a range of valid indices the call returns an array. -/
theorem mergeSort32_terminates (arr : List α) (left right : Int)
    (hl : IsInt32 left) (hr : IsInt32 right) (hd : right - left < 2 ^ 31) :
    (∀ fuel : Nat, mergeSortFuel32 fuel arr left right = mergeSortFuel fuel arr left right) ∧
    (∀ fuel : Nat, (right - left).toNat ≤ fuel →
      mergeSortFuel32 fuel arr left right = mergeSort arr left right ∧
      mergeSortFuel32 fuel arr left right ≠ Except.error Fault.outOfFuel) ∧
    (right ≤ left → ∀ fuel : Nat, mergeSortFuel32 fuel arr left right = Except.ok arr) ∧
    (left < right →
      left ≤ midpoint32 left right ∧ midpoint32 left right < right ∧
      midpoint32 left right = left + Int.tdiv (right - left) 2 ∧
      wrapInt32 (midpoint32 left right + 1) = midpoint32 left right + 1 ∧
      (midpoint32 left right - left).toNat < (right - left).toNat ∧
      (right - (midpoint32 left right + 1)).toNat < (right - left).toNat ∧
      midpoint32 left right - left < 2 ^ 31 ∧
      right - (midpoint32 left right + 1) < 2 ^ 31) ∧
    (0 ≤ left → left ≤ right → right < (arr.length : Int) →
      ∃ arr1 : List α, mergeSortFuel32 (right - left).toNat arr left right = Except.ok arr1) := by
  have hagree := fun fuel => mergeSortFuel32_eq fuel arr left right hl hr hd
  refine ⟨hagree, ?_, ?_, ?_, ?_⟩
  · intro fuel hf
    have hrun : mergeSortFuel fuel arr left right = mergeSort arr left right := by
      obtain ⟨d, rfl⟩ := Nat.exists_eq_add_of_le hf
      exact mergeSortFuel_add arr left right d
    rw [hagree fuel]
    exact ⟨hrun, mergeSortFuel_ne_outOfFuel fuel arr left right hf⟩
  · intro h fuel
    have : ¬ left < right := by omega
    cases fuel <;> simp [mergeSortFuel32, this]
  · intro h
    obtain ⟨hm1, hm2⟩ := midpoint_bounds left right h
    have hmid := midpoint32_eq left right hl hr h hd
    rw [hmid]
    unfold IsInt32 at hl hr
    refine ⟨hm1, hm2, rfl, wrapInt32_of_isInt32 _ (by unfold IsInt32; omega), by omega,
      by omega, by omega, by omega⟩
  · intro h0 h1 h2
    obtain ⟨s, hrun, -⟩ := mergeSort_decomp arr left right h0 h1 h2
    exact ⟨_, (hagree _).trans hrun⟩

/-- Witness for C13: the range `0..5` of six values, on which the call
recurses; the run on `int` indices returns the sorted array. -/
theorem mergeSort32_terminates_witness :
    (∀ fuel : Nat, 5 ≤ fuel →
      mergeSortFuel32 fuel ([3, 1, 2, 5, 4, 4] : List ℚ) 0 5 = Except.ok [1, 2, 3, 4, 4, 5]) ∧
    midpoint32 0 5 = 2 ∧ wrapInt32 (midpoint32 0 5 + 1) = 3 ∧
    (midpoint32 0 5 - 0).toNat < ((5 : Int) - 0).toNat ∧
    ((5 : Int) - (midpoint32 0 5 + 1)).toNat < ((5 : Int) - 0).toNat := by
  have h := mergeSort32_terminates ([3, 1, 2, 5, 4, 4] : List ℚ) 0 5 (by decide) (by decide)
    (by decide)
  have hmid := h.2.2.2.1 (by decide)
  refine ⟨fun fuel hf => ?_, by decide, by decide, hmid.2.2.2.2.1, hmid.2.2.2.2.2.1⟩
  have hrun := (h.2.1 fuel (by simpa using hf)).1
  rw [hrun]
  rfl

end TraceProofs

end DataAnalyzer
